import Mathlib

/-!
Verification development for the radicle-link core.

This file gives a shallow embedding of three subsystems and proves
properties about them:

* the git tracking store (`link-tracking/src/git/tracking.rs`,
  `tracking/batch.rs`, `tracking/write.rs`) — references
  `refs/rad/remotes/<urn>/(default|<peer>)` pointing at canonical-JSON
  configuration blobs;
* the tracking-configuration JSON parser
  (`link-tracking/src/git/config.rs`, `config/cobs.rs`, `config/data.rs`);
* the collaborative-object change graph (`cob/src/change_graph.rs`);
* the request-pull server state machine
  (`librad/src/net/protocol/io/recv/request_pull.rs`), embedded as the
  trace of frames and gossip announces one session emits.

The reference database and object database capabilities
(`link-tracking/src/git/refdb.rs`, `odb.rs`) are instantiated with a
concrete in-memory store: references are an association list from full
reference-name strings to object ids, blobs an association list from
object ids to decoded configurations, and `write_object` allocates
object ids from a counter.  Object ids are `Nat`; URNs are represented
by their `encode_id` rendering and peer ids by their textual rendering,
both `String`.
-/

namespace Tracking

/-- `config::cobs::Policy`. -/
inductive Policy
  | allow
  | deny
deriving DecidableEq, Repr

/-- `config::cobs::Object<Id>`: a wildcard or an object identifier
(`Id` is instantiated at `Cstring`, modelled as `String`). -/
inductive CobObject
  | wildcard
  | identifier (id : String)
deriving DecidableEq, Repr

/-- `config::cobs::Filter<Id>`. -/
structure Filter where
  policy : Policy
  pattern : CobObject
deriving DecidableEq, Repr

/-- `config::cobs::Cobs<Ty, Id>`: wildcard or per-typename filters.
The `BTreeMap<Ty, BTreeSet<Filter>>` is modelled as an association
list in iteration order. -/
inductive Cobs
  | wildcard
  | filters (fs : List (String × List Filter))
deriving DecidableEq, Repr

/-- `config::Config<Ty, Id>` with `Ty = Id = Cstring`. -/
structure Config where
  data : Bool
  cobs : Cobs
deriving DecidableEq, Repr

/-- `Default` instance of `Config`: `data = true`, `cobs = Wildcard`. -/
def Config.defaultConfig : Config :=
  { data := true, cobs := Cobs.wildcard }

/-- `git::tracking::reference::Remote`. -/
inductive Remote
  | dflt
  | peer (p : String)
deriving DecidableEq, Repr

/-- `Display` for `Remote`: `default` or the textual peer id. -/
def Remote.render : Remote → String
  | Remote.dflt => "default"
  | Remote.peer p => p

/-- `git::tracking::reference::ReferenceName` (`RefName`): the urn
(by its `encode_id` rendering) and the remote component. -/
structure RefName where
  urn : String
  remote : Remote
deriving DecidableEq, Repr

/-- `RefName::borrowed(urn, peer)`: `None` maps to the `default` entry. -/
def RefName.ofPeer (urn : String) (peer : Option String) : RefName :=
  { urn := urn
  , remote := match peer with
      | none => Remote.dflt
      | some p => Remote.peer p }

/-- `From<&ReferenceName> for RefLike` / `Display`: the full reference
name `refs/rad/remotes/<urn>/<default|peer>`. -/
def refNameStr (r : RefName) : String :=
  "refs/rad/remotes/" ++ r.urn ++ "/" ++ r.remote.render

/-- Split a character list on `/` (used to model `str::split('/')`). -/
def splitSlash : List Char → List (List Char)
  | [] => [[]]
  | c :: cs =>
      let rest := splitSlash cs
      if c = '/' then [] :: rest
      else match rest with
        | [] => [[c]]
        | r :: rs => (c :: r) :: rs

/-- `FromStr for ReferenceName`: strip the prefix `refs/rad/remotes/`,
read the urn component and the remote component (`default` or a peer
id); further components are ignored, exactly as `components.next()` is
called only twice.  Empty components fail the urn / peer-id parse. -/
def parseRefName (name : String) : Option RefName :=
  let stem := "refs/rad/remotes/".toList
  if List.isPrefixOf stem name.toList then
    match splitSlash (name.toList.drop stem.length) with
    | urn :: remote :: _ =>
        if urn.isEmpty then none
        else if remote.isEmpty then none
        else if String.mk remote = "default"
          then some { urn := String.mk urn, remote := Remote.dflt }
          else some { urn := String.mk urn, remote := Remote.peer (String.mk remote) }
    | _ => none
  else none

/-- The in-memory instantiation of the `refdb`/`odb` capabilities: full
reference names to targets, object ids to configuration blobs, and the
allocator for fresh object ids. -/
structure Store where
  refs : List (String × Nat)
  blobs : List (Nat × Config)
  next : Nat
deriving DecidableEq, Repr

/-- `refdb::Read::find_reference` on raw names. -/
def findRef (s : Store) (name : String) : Option Nat :=
  s.refs.lookup name

/-- `refdb::Read::find_reference` on a `RefName`. -/
def find_reference (s : Store) (name : RefName) : Option Nat :=
  findRef s (refNameStr name)

/-- `odb::Read::find_blob` composed with the config decoding
(`find_config`). -/
def find_config (s : Store) (oid : Nat) : Option Config :=
  s.blobs.lookup oid

/-- `odb::Write::write_object` of a config's canonical form
(`write_config`): allocates a fresh oid for the blob. -/
def write_config (s : Store) (c : Config) : Nat × Store :=
  (s.next, { s with blobs := (s.next, c) :: s.blobs, next := s.next + 1 })

/-- `refdb::Update`. -/
inductive Update
  | write (name : RefName) (target : Nat)
  | delete (name : RefName)
deriving DecidableEq, Repr

/-- `refdb::Updated`. -/
inductive Updated
  | written (name : RefName) (target : Nat)
  | deleted (name : RefName)
deriving DecidableEq, Repr

/-- Remove a reference by name. -/
def eraseRef (refs : List (String × Nat)) (name : String) : List (String × Nat) :=
  refs.filter (fun p => p.1 ≠ name)

/-- Apply one reference update. -/
def applyUpdate (s : Store) (u : Update) : Store × Updated :=
  match u with
  | Update.write name target =>
      ({ s with refs := (refNameStr name, target) :: eraseRef s.refs (refNameStr name) },
       Updated.written name target)
  | Update.delete name =>
      ({ s with refs := eraseRef s.refs (refNameStr name) }, Updated.deleted name)

/-- `refdb::Write::update`: the transactional batch, applied in order;
the in-memory store applies every update and reports it. -/
def applyUpdates (s : Store) : List Update → Store × List Updated
  | [] => (s, [])
  | u :: us =>
      let su := applyUpdate s u
      let rest := applyUpdates su.1 us
      (rest.1, su.2 :: rest.2)

/-- `tracking.rs::load_config`: find the reference, then the blob it
points at. -/
def load_config (s : Store) (name : RefName) : Option Config :=
  match find_reference s name with
  | none => none
  | some target => find_config s target

/-- `refdb::Ref` (with owned name). -/
structure Ref where
  name : RefName
  target : Nat
deriving DecidableEq, Repr

/-- `tracking::Tracked<Oid, Config>`. -/
inductive Tracked
  | dflt (urn : String) (config : Config)
  | peer (urn : String) (peer : String) (config : Config)
deriving DecidableEq, Repr

/-- `tracking.rs::from_reference`. -/
def from_reference (name : RefName) (config : Config) : Tracked :=
  match name.remote with
  | Remote.dflt => Tracked.dflt name.urn config
  | Remote.peer p => Tracked.peer name.urn p config

/-- `tracking.rs::track`: if `load_config` finds nothing, write the
config blob and create the reference; report the created `Ref`.
If the entry pre-existed, return `none`. -/
def track (s : Store) (urn : String) (peer : Option String) (config : Config) :
    Store × Option Ref :=
  let reference := RefName.ofPeer urn peer
  match load_config s reference with
  | some _ => (s, none)
  | none =>
      let ws := write_config s config
      let res := applyUpdates ws.2 [Update.write reference ws.1]
      (res.1,
        res.2.head?.bind fun u =>
          match u with
          | Updated.written name target => some { name := name, target := target }
          | Updated.deleted _ => none)

/-- `tracking.rs::untrack`: load the config; if present delete the
reference and return the `Tracked` entry. -/
def untrack (s : Store) (urn : String) (peer : String) : Store × Option Tracked :=
  let reference : RefName := { urn := urn, remote := Remote.peer peer }
  match load_config s reference with
  | none => (s, none)
  | some config =>
      let res := applyUpdates s [Update.delete reference]
      (res.1, some (from_reference reference config))

/-- `tracking.rs::update`: only retargets an existing entry; returns
`none` when the entry does not exist. -/
def update (s : Store) (urn : String) (peer : Option String) (config : Config) :
    Store × Option Ref :=
  let name := RefName.ofPeer urn peer
  match find_reference s name with
  | none => (s, none)
  | some _ =>
      let ws := write_config s config
      let res := applyUpdates ws.2 [Update.write name ws.1]
      (res.1, some { name := name, target := ws.1 })

/-- `tracking.rs::get`: find the reference, then the config blob;
either miss yields `none`. -/
def get (s : Store) (urn : String) (peer : Option String) : Option Tracked :=
  let name := RefName.ofPeer urn peer
  match find_reference s name with
  | none => none
  | some target =>
      match find_config s target with
      | none => none
      | some config => some (from_reference name config)

/-- `tracking.rs::is_tracked`. -/
def is_tracked (s : Store) (urn : String) (peer : Option String) : Bool :=
  (find_reference s (RefName.ofPeer urn peer)).isSome

/-- A refspec pattern with a single trailing `*` matches by textual
stem (`RefspecPattern` matching of `refdb::Read::references`). -/
def globMatches (pat : String) (name : String) : Bool :=
  if pat.toList.getLast? = some '*' then
    List.isPrefixOf pat.toList.dropLast name.toList
  else pat = name

/-- `refdb::Read::references`: the references matching a pattern, in
store order. -/
def references (s : Store) (pat : String) : List (String × Nat) :=
  s.refs.filter (fun p => globMatches pat p.1)

/-- `tracking.rs::tracked`: NOTE the prefix in the source is the
string `"refs/rad/remotes}"` (tracking.rs line 239), with a stray
closing brace, unlike `reference::base()` used by every other
operation.  The `seen` cache is created and read but never written
(tracking.rs lines 250–261); entries whose blob is missing are
skipped with a warning. -/
def tracked (s : Store) (filterBy : Option String) : List Tracked :=
  let stem := "refs/rad/remotes\x7d"
  let spec := match filterBy with
    | some urn => stem ++ "/" ++ urn ++ "/*"
    | none => stem ++ "/*"
  let seen : List (Nat × Config) := []
  (references s spec).filterMap fun r =>
    match parseRefName r.1 with
    | none => none
    | some name =>
        match seen.lookup r.2 with
        | some config => some (from_reference name config)
        | none =>
            match find_config s r.2 with
            | none => none
            | some config => some (from_reference name config)

/-- `batch::Action`. -/
inductive Action
  | track (urn : String) (peer : Option String) (config : Config)
  | untrack (urn : String) (peer : String)
  | update (urn : String) (peer : Option String) (config : Config)
deriving DecidableEq, Repr

/-- `batch::target`: the within-batch blob cache — identical configs
write exactly one blob (`HashMap<Config, Oid>` as an association
list). Returns the target oid, the store after any blob write, and
the updated cache. -/
def targetFor (s : Store) (seen : List (Config × Nat)) (config : Config) :
    Nat × Store × List (Config × Nat) :=
  match seen.lookup config with
  | some t => (t, s, seen)
  | none =>
      let ws := write_config s config
      (ws.1, ws.2, (config, ws.1) :: seen)

/-- `batch::into_updates`: `Track` guarded by `on_missing`, `Update`
guarded by `on_existing` (both against the reference state at the
start of the batch, which reference-wise is never modified here),
`Untrack` unconditional.  Dropped actions contribute no update.
Blob writes happen here, before the reference transaction. -/
def into_updates (s : Store) (seen : List (Config × Nat)) :
    List Action → Store × List Update
  | [] => (s, [])
  | a :: rest =>
      match a with
      | Action.track urn peer config =>
          let name := RefName.ofPeer urn peer
          (match find_reference s name with
          | some _ => into_updates s seen rest
          | none =>
              let tss := targetFor s seen config
              let res := into_updates tss.2.1 tss.2.2 rest
              (res.1, Update.write name tss.1 :: res.2))
      | Action.untrack urn peer =>
          let res := into_updates s seen rest
          (res.1, Update.delete { urn := urn, remote := Remote.peer peer } :: res.2)
      | Action.update urn peer config =>
          let name := RefName.ofPeer urn peer
          (match find_reference s name with
          | none => into_updates s seen rest
          | some _ =>
              let tss := targetFor s seen config
              let res := into_updates tss.2.1 tss.2.2 rest
              (res.1, Update.write name tss.1 :: res.2))

/-- `batch::batch`: collect the updates, then run the reference
transaction. -/
def batch (s : Store) (actions : List Action) : Store × List Updated :=
  let su := into_updates s [] actions
  applyUpdates su.1 su.2

/-- Whether a batch action survives `into_updates` against the
reference state `s` at the start of the batch: a `Track` of an
existing entry and an `Update` of an absent entry are dropped. -/
def keeps (s : Store) : Action → Bool
  | Action.track urn peer _ => !(find_reference s (RefName.ofPeer urn peer)).isSome
  | Action.untrack _ _ => true
  | Action.update urn peer _ => (find_reference s (RefName.ofPeer urn peer)).isSome

/-- The actions of a batch that are not silently dropped. -/
def remaining (s : Store) (actions : List Action) : List Action :=
  actions.filter (keeps s)

/-- One action applied unconditionally (no precondition re-check):
`Track`/`Update` write a fresh config blob and retarget the
reference, `Untrack` deletes it. -/
def applyUncond (s : Store) (a : Action) : Store :=
  match a with
  | Action.track urn peer config =>
      let ws := write_config s config
      (applyUpdates ws.2 [Update.write (RefName.ofPeer urn peer) ws.1]).1
  | Action.untrack urn peer =>
      (applyUpdates s [Update.delete { urn := urn, remote := Remote.peer peer }]).1
  | Action.update urn peer config =>
      let ws := write_config s config
      (applyUpdates ws.2 [Update.write (RefName.ofPeer urn peer) ws.1]).1

/-- Sequential unconditional application. -/
def seqUncond (s : Store) (actions : List Action) : Store :=
  actions.foldl applyUncond s

/-- Sequential application through the single-call operations
`track` / `untrack` / `update` of tracking.rs. -/
def seqOps (s : Store) : List Action → Store
  | [] => s
  | Action.track urn peer config :: rest => seqOps (track s urn peer config).1 rest
  | Action.untrack urn peer :: rest => seqOps (untrack s urn peer).1 rest
  | Action.update urn peer config :: rest => seqOps (update s urn peer config).1 rest

/-- The observable tracking state: which configuration (if any) each
full reference name resolves to through the reference and the blob
store. -/
def obs (s : Store) (name : String) : Option Config :=
  (findRef s name).bind (find_config s)

/-- Store sanity: every reference target and blob oid is below the
allocator cursor (true of every store built by the operations). -/
def WFStore (s : Store) : Prop :=
  (∀ p ∈ s.refs, p.2 < s.next) ∧ (∀ b ∈ s.blobs, b.1 < s.next)

instance (s : Store) : Decidable (WFStore s) := by
  unfold WFStore; infer_instance

/-- The reference name a batch action addresses. -/
def actionName : Action → RefName
  | Action.track urn peer _ => RefName.ofPeer urn peer
  | Action.untrack urn peer => { urn := urn, remote := Remote.peer peer }
  | Action.update urn peer _ => RefName.ofPeer urn peer

/-- The effect of one (unconditionally applied) batch action on the
observable tracking state, as a map update: `Track`/`Update` bind the
action's name to its config, `Untrack` unbinds it. -/
def applyActObs (f : String → Option Config) (a : Action) : String → Option Config :=
  fun name =>
    if name = refNameStr (actionName a) then
      match a with
      | Action.track _ _ config => some config
      | Action.update _ _ config => some config
      | Action.untrack _ _ => none
    else f name

/-- Folding the observable effect of a list of actions. -/
def obsFold (f : String → Option Config) (as : List Action) : String → Option Config :=
  as.foldl applyActObs f

/-- The shape of the update list `into_updates` produces for a batch:
per action either a drop (`Track` on an existing entry, `Update` on an
absent one, judged against the reference state of `s`) or exactly one
reference update, whose write target resolves to the action's config
through `lookupC` (the blob store at the end of `into_updates`). -/
inductive UpdsFor (lookupC : Nat → Option Config) (s : Store) :
    List Action → List Update → Prop
  | nil : UpdsFor lookupC s [] []
  | trackDrop {urn : String} {peer : Option String} {config : Config}
      {rest : List Action} {us : List Update} :
      (find_reference s (RefName.ofPeer urn peer)).isSome = true →
      UpdsFor lookupC s rest us →
      UpdsFor lookupC s (Action.track urn peer config :: rest) us
  | trackKeep {urn : String} {peer : Option String} {config : Config}
      {rest : List Action} {us : List Update} {t : Nat} :
      find_reference s (RefName.ofPeer urn peer) = none →
      lookupC t = some config →
      UpdsFor lookupC s rest us →
      UpdsFor lookupC s (Action.track urn peer config :: rest)
        (Update.write (RefName.ofPeer urn peer) t :: us)
  | untrackKeep {urn peer : String} {rest : List Action} {us : List Update} :
      UpdsFor lookupC s rest us →
      UpdsFor lookupC s (Action.untrack urn peer :: rest)
        (Update.delete { urn := urn, remote := Remote.peer peer } :: us)
  | updateDrop {urn : String} {peer : Option String} {config : Config}
      {rest : List Action} {us : List Update} :
      find_reference s (RefName.ofPeer urn peer) = none →
      UpdsFor lookupC s rest us →
      UpdsFor lookupC s (Action.update urn peer config :: rest) us
  | updateKeep {urn : String} {peer : Option String} {config : Config}
      {rest : List Action} {us : List Update} {t : Nat} :
      (find_reference s (RefName.ofPeer urn peer)).isSome = true →
      lookupC t = some config →
      UpdsFor lookupC s rest us →
      UpdsFor lookupC s (Action.update urn peer config :: rest)
        (Update.write (RefName.ofPeer urn peer) t :: us)

/-- The within-batch blob cache is coherent with a store: every
cached oid is allocated and resolves to the cached config. -/
def CacheOK (s : Store) (seen : List (Config × Nat)) : Prop :=
  ∀ q ∈ seen, q.2 < s.next ∧ find_config s q.2 = some q.1

/-- `tracking/write.rs` error for `track` (only the variant the
claims mention). -/
inductive TrackError
  | selfReferential
deriving DecidableEq, Repr

/-- A repository handle carrying the local peer
(`peer::LocalPeer::local`). -/
structure Repo where
  store : Store
  localPeer : String
deriving DecidableEq, Repr

/-- `tracking/write.rs`: `Write::track` for a repo. The self-tracking
check is performed at entry: `peer == local` fails with
`SelfReferential` before anything is written.  Otherwise, if the
reference is absent, write the blob of `config.unwrap_or_default()`
and create the reference (`MustNotExist`), returning `true`; if it
exists, return `false`. -/
def writeTrack (r : Repo) (urn : String) (peer : Option String) (config : Option Config) :
    Except TrackError (Repo × Bool) :=
  if peer = some r.localPeer then Except.error TrackError.selfReferential
  else
    let reference := RefName.ofPeer urn peer
    match find_reference r.store reference with
    | some _ => Except.ok (r, false)
    | none =>
        let ws := write_config r.store (config.getD Config.defaultConfig)
        let res := applyUpdates ws.2 [Update.write reference ws.1]
        Except.ok ({ r with store := res.1 }, true)

/-- `link_canonical::json::Value`, restricted to what the tracking
configuration grammar touches.  Objects are association lists in key
order (`Map` is a `BTreeMap`); `get` is key lookup. -/
inductive JValue
  | nullv
  | boolean (b : Bool)
  | number (n : Int)
  | strv (s : String)
  | array (xs : List JValue)
  | object (kvs : List (String × JValue))

/-- `Value::ty_name`. -/
def JValue.tyName : JValue → String
  | JValue.nullv => "null"
  | JValue.boolean _ => "bool"
  | JValue.number _ => "number"
  | JValue.strv _ => "string"
  | JValue.array _ => "array"
  | JValue.object _ => "object"

/-- The parse errors of `git/config.rs`, `config/data.rs` and
`config/cobs.rs`, flattened into one type (the source nests them via
`#[from]`). -/
inductive JsonError
  | missingKey (k : String)
  | mismatchedTy (expected found : String)
  | unexpectedPolicy (s : String)
  | mismatchedStr (s : String)
deriving DecidableEq, Repr

/-- `TryFrom<&Value> for Data`: a boolean, anything else mismatches. -/
def parseData : JValue → Except JsonError Bool
  | JValue.boolean b => Except.ok b
  | v => Except.error (JsonError.mismatchedTy "bool" v.tyName)

/-- `TryFrom<&Value> for Policy`: the strings `allow` / `deny`. -/
def parsePolicy : JValue → Except JsonError Policy
  | JValue.strv s =>
      if s = "allow" then Except.ok Policy.allow
      else if s = "deny" then Except.ok Policy.deny
      else Except.error (JsonError.unexpectedPolicy s)
  | v => Except.error (JsonError.mismatchedTy "string" v.tyName)

/-- `TryFrom<Value> for Object<Id>`: `"*"` is the wildcard, any other
string converts to the identifier (`Id = Cstring`, which accepts any
string); non-strings mismatch. -/
def parseCobObject : JValue → Except JsonError CobObject
  | JValue.strv s =>
      if s = "*" then Except.ok CobObject.wildcard
      else Except.ok (CobObject.identifier s)
  | v => Except.error (JsonError.mismatchedTy "string of star or object id" v.tyName)

/-- `TryFrom<Value> for Filter<Id>`: an object with keys `policy` and
`pattern` (both looked up before either is parsed). -/
def parseFilter : JValue → Except JsonError Filter
  | JValue.object kvs =>
      (match kvs.lookup "policy" with
      | none => Except.error (JsonError.missingKey "policy")
      | some pv =>
          match kvs.lookup "pattern" with
          | none => Except.error (JsonError.missingKey "pattern")
          | some ov => do
              let p ← parsePolicy pv
              let o ← parseCobObject ov
              Except.ok { policy := p, pattern := o })
  | v => Except.error (JsonError.mismatchedTy "object" v.tyName)

/-- The per-filter collection of one typename's array entries
(`BTreeSet<Filter>` is modelled as the list in parse order). -/
def parseFilterList : List JValue → Except JsonError (List Filter)
  | [] => Except.ok []
  | v :: vs => do
      let f ← parseFilter v
      let fs ← parseFilterList vs
      Except.ok (f :: fs)

/-- The iteration body of `TryFrom<&Value> for Cobs` over the object's
entries: each value must be an array of filters. -/
def parseCobEntries : List (String × JValue) → Except JsonError (List (String × List Filter))
  | [] => Except.ok []
  | (ty, v) :: rest =>
      match v with
      | JValue.array objs => do
          let fs ← parseFilterList objs
          let more ← parseCobEntries rest
          Except.ok ((ty, fs) :: more)
      | v => Except.error (JsonError.mismatchedTy "[<object id>...]" v.tyName)

/-- `TryFrom<&Value> for Cobs<Ty, Id>`: an object of typename-keyed
filter arrays, or the string `"*"`. -/
def parseCobs : JValue → Except JsonError Cobs
  | JValue.object kvs => (parseCobEntries kvs).map Cobs.filters
  | JValue.strv s =>
      if s = "*" then Except.ok Cobs.wildcard
      else Except.error (JsonError.mismatchedStr s)
  | v => Except.error (JsonError.mismatchedTy "typename filters" v.tyName)

/-- `git/config.rs`: `TryFrom<&Value> for config::Config`.  Looks up
`cobs` then `data` in the object, parses `data` then `cobs`; any
non-object mismatches.  Keys other than `cobs` and `data` are never
consulted. -/
def parseConfig : JValue → Except JsonError Config
  | JValue.object kvs =>
      (match kvs.lookup "cobs" with
      | none => Except.error (JsonError.missingKey "cobs")
      | some cv =>
          match kvs.lookup "data" with
          | none => Except.error (JsonError.missingKey "data")
          | some dv => do
              let d ← parseData dv
              let c ← parseCobs cv
              Except.ok { data := d, cobs := c })
  | v => Except.error (JsonError.mismatchedTy "object with cobs and data" v.tyName)

end Tracking

namespace Cob

/-- A change (`cob::Change`) as the change-graph traversal consumes
it: its commit Oid, whether `valid_signatures()` holds, whether the
author filter of `ChangeGraph::evaluate` (identity lookup plus
person-urn / maintainer check) passes, and its automerge payload
bytes. -/
structure Change where
  commit : Nat
  validSignatures : Bool
  authorOk : Bool
  payload : List Nat
deriving DecidableEq, Repr

/-- `cob::ChangeGraph`: the petgraph `Graph<Change, ()>` as the node
list in insertion (index) order and the edge list `(parent index,
child index)` in insertion order, together with the `Oid →
node-index` map. -/
structure Graph where
  nodeIndices : List (Nat × Nat)
  nodes : List Change
  edges : List (Nat × Nat)
deriving DecidableEq, Repr

/-- The empty graph. -/
def Graph.empty : Graph :=
  { nodeIndices := [], nodes := [], edges := [] }

/-- `ChangeGraph::add_change`: insert a node only when the commit is
not yet keyed in `node_indices`. -/
def add_change (g : Graph) (c : Change) : Graph :=
  match g.nodeIndices.lookup c.commit with
  | some _ => g
  | none =>
      { g with
        nodes := g.nodes ++ [c]
      , nodeIndices := (c.commit, g.nodes.length) :: g.nodeIndices }

/-- petgraph `update_edge`: add the edge `parent → child` unless it is
already present. -/
def update_edge (g : Graph) (p c : Nat) : Graph :=
  if (p, c) ∈ g.edges then g else { g with edges := g.edges ++ [(p, c)] }

/-- `ChangeGraph::add_edge(child, parent)`: resolve both commits
through `node_indices` (the source unwraps; resolution never fails at
the call sites) and `update_edge(parent, child)`. -/
def add_edge (g : Graph) (child parent : Nat) : Graph :=
  let childIx := (g.nodeIndices.lookup child).getD 0
  let parentIx := (g.nodeIndices.lookup parent).getD 0
  update_edge g parentIx childIx

/-- Whether node `i` has an outgoing edge. -/
def hasOutgoing (g : Graph) (i : Nat) : Bool :=
  g.edges.any (fun e => e.1 = i)

/-- petgraph `externals(Outgoing)` in index order. -/
def tipIndices (g : Graph) : List Nat :=
  (List.range g.nodes.length).filter (fun i => !(hasOutgoing g i))

/-- The change stored at index `i`. -/
def nodeAt (g : Graph) (i : Nat) : Change :=
  (g.nodes.get? i).getD { commit := 0, validSignatures := false, authorOk := false, payload := [] }

/-- `ChangeGraph::tips`: the commits of the nodes with no outgoing
edge. -/
def tips (g : Graph) : List Nat :=
  (tipIndices g).map (fun i => (nodeAt g i).commit)

/-- `ChangeGraph::extend`: read the tips, add the change, then add an
edge from every one of those tips to the new change. -/
def extend (g : Graph) (c : Change) : Graph :=
  let ts := tips g
  let commit := c.commit
  let g1 := add_change g c
  ts.foldl (fun acc tip => add_edge acc commit tip) g1

/-- petgraph `externals(Incoming)` in index order: the roots. -/
def rootsOf (g : Graph) : List Nat :=
  (List.range g.nodes.length).filter (fun i => !(g.edges.any (fun e => e.2 = i)))

/-- `roots.sort()`: sorting the root node indices ascending. -/
def sortIndices (l : List Nat) : List Nat :=
  List.insertionSort (· ≤ ·) l

/-- `roots.first()` after the sort: the DFS origin of `evaluate`. -/
def originOf (g : Graph) : Option Nat :=
  (sortIndices (rootsOf g)).head?

/-- petgraph `neighbors`: successors of `n`, most recently inserted
edge first. -/
def succs (g : Graph) (n : Nat) : List Nat :=
  ((g.edges.filter (fun e => e.1 = n)).map Prod.snd).reverse

/-- The traversal state of `ChangeGraph::evaluate`: discovered nodes,
accepted nodes in discovery order, the materializer state
(`ProposedHistory`'s backend/frontend pair, abstracted to `σ`), and
the `valid_history` byte vector. -/
structure EvalSt (σ : Type) where
  visited : List Nat
  accepted : List Nat
  state : σ
  history : List Nat
deriving Repr

/-- The `DfsEvent::Discover` body of `evaluate`: signatures, then
authorship, then `propose_change` (`applyc` is the automerge
apply, returning `none` on an invalid change; `validSchema` the
schema check).  `none` is `Control::Prune`, and the materializer is
left at its pre-application snapshot; `some` is `Control::Continue`
with the payload appended to the valid history. -/
def tryNode {σ : Type} (g : Graph) (applyc : σ → List Nat → Option σ)
    (validSchema : σ → Bool) (st : EvalSt σ) (n : Nat) : Option (EvalSt σ) :=
  let c := nodeAt g n
  if !c.validSignatures then none
  else if !c.authorOk then none
  else
    match applyc st.state c.payload with
    | none => none
    | some s' =>
        if validSchema s' then
          some { st with
                 state := s'
               , history := st.history ++ c.payload
               , accepted := st.accepted ++ [n] }
        else none

/-- The depth-first search of `evaluate` (petgraph
`depth_first_search` from the single origin), with an explicit
pending stack and fuel.  A pruned node is marked visited but its
successors are not pushed. -/
def dfsGo {σ : Type} (g : Graph) (applyc : σ → List Nat → Option σ)
    (validSchema : σ → Bool) : Nat → List Nat → EvalSt σ → EvalSt σ
  | 0, _, st => st
  | _ + 1, [], st => st
  | fuel + 1, n :: rest, st =>
      if n ∈ st.visited then dfsGo g applyc validSchema fuel rest st
      else
        let st0 := { st with visited := n :: st.visited }
        match tryNode g applyc validSchema st0 n with
        | none => dfsGo g applyc validSchema fuel rest st0
        | some st1 => dfsGo g applyc validSchema fuel (succs g n ++ rest) st1

/-- Enough fuel to drive the DFS to completion. -/
def fuelOf (g : Graph) : Nat :=
  g.nodes.length + g.edges.length + 1

/-- `ChangeGraph::evaluate`: sort the roots, take the first as DFS
origin, and run the pruning traversal; the materialized history is
the concatenation of accepted payloads in discovery order. -/
def evaluate {σ : Type} (g : Graph) (applyc : σ → List Nat → Option σ)
    (validSchema : σ → Bool) (init : σ) : EvalSt σ :=
  match originOf g with
  | none => { visited := [], accepted := [], state := init, history := [] }
  | some root =>
      dfsGo g applyc validSchema (fuelOf g) [root]
        { visited := [], accepted := [], state := init, history := [] }

/-- Reachability from `root` through a chain of accepted nodes: the
path may end anywhere, but every interior step leaves an accepted
node along a graph edge. -/
inductive AccReach (g : Graph) (acc : List Nat) (root : Nat) : Nat → Prop
  | base : AccReach g acc root root
  | step {p n : Nat} : AccReach g acc root p → p ∈ acc → (p, n) ∈ g.edges →
      AccReach g acc root n

/-- Plain edge reachability. -/
inductive Reach (g : Graph) (root : Nat) : Nat → Prop
  | base : Reach g root root
  | step {p n : Nat} : Reach g root p → (p, n) ∈ g.edges → Reach g root n

/-- Graph sanity maintained by the builder and `extend`: the index
map is the inverse of node storage, node commits are distinct, and
edges stay in range. -/
def WFGraph (g : Graph) : Prop :=
  (∀ j ∈ List.range g.nodes.length, g.nodeIndices.lookup (nodeAt g j).commit = some j) ∧
  (∀ q ∈ g.nodeIndices, q.2 < g.nodes.length ∧ (nodeAt g q.2).commit = q.1) ∧
  (∀ e ∈ g.edges, e.1 < g.nodes.length ∧ e.2 < g.nodes.length)

instance (g : Graph) : Decidable (WFGraph g) := by
  unfold WFGraph; infer_instance

/-- A trivial materializer (accepts every payload): the payload filter
never prunes, isolating the traversal behaviour. -/
def unitApply : Unit → List Nat → Option Unit :=
  fun _ _ => some ()

/-- A trivial schema (always valid). -/
def unitValid : Unit → Bool :=
  fun _ => true

/-- A diamond change graph: root `0` with children `1` (valid) and `2`
(invalid signature), both parents of `3` (valid). -/
def diamondGraph : Graph :=
  { nodeIndices := [(0, 0), (1, 1), (2, 2), (3, 3)]
  , nodes :=
      [ { commit := 0, validSignatures := true, authorOk := true, payload := [10] }
      , { commit := 1, validSignatures := true, authorOk := true, payload := [11] }
      , { commit := 2, validSignatures := false, authorOk := true, payload := [12] }
      , { commit := 3, validSignatures := true, authorOk := true, payload := [13] } ]
  , edges := [(0, 1), (0, 2), (1, 3), (2, 3)] }

/-- Two disconnected roots: the first-inserted node has the larger
commit Oid `5`, the second-inserted the smaller Oid `3`. -/
def twoRootGraph : Graph :=
  { nodeIndices := [(5, 0), (3, 1)]
  , nodes :=
      [ { commit := 5, validSignatures := true, authorOk := true, payload := [1] }
      , { commit := 3, validSignatures := true, authorOk := true, payload := [2] } ]
  , edges := [] }

end Cob

namespace RP

/-- `request_pull::Response`, restricted to the terminal variants
(progress is modelled as its own trace event). -/
inductive Response
  | success (refs : List (String × Nat))
  | error (message : String)
deriving DecidableEq, Repr

/-- One observable effect of a request-pull server session, in
emission order: a `Progress` frame, a gossip `Announce` handed to the
gossip layer (with its optional rev, its origin, and the excluded
peer), or the terminal frame. -/
inductive Event
  | progress (message : String)
  | announce (urn : String) (rev : Option Nat) (origin : Option Nat) (exclude : Option String)
  | terminal (r : Response)
deriving DecidableEq, Repr

/-- `request_pull::progress::authorizing`. -/
def authorizingMsg (peer urn : String) : String :=
  "Authorizing `" ++ peer ++ "` and `" ++ urn ++ "`"

/-- `request_pull::progress::replicating`. -/
def replicatingMsg (peer urn : String) : String :=
  "Starting replication from `" ++ peer ++ "` for `" ++ urn ++ "`"

/-- The unauthorized error message of `handle_request`. -/
def unauthorizedMsg (peer urn : String) : String :=
  "Unauthorized request-pull from " ++ peer ++ " for " ++ urn

/-- The replication error message of `handle_request`. -/
def replErrMsg (e : String) : String :=
  "request-pull replication error: " ++ e

/-- The decode error message of `request_pull`. -/
def decodeErrMsg (peer : String) : String :=
  "failed to decode request from `" ++ peer ++ "`"

/-- `io::recv::request_pull::gossip`: one `Announce{urn, rev:
Some(rev), origin: None}` per replicated tip, excluding the
requesting peer. -/
def gossipEvents (peer urn : String) (revs : List Nat) : List Event :=
  revs.map (fun rev => Event.announce urn (some rev) none (some peer))

/-- `handle_request`, as the trace of effects it produces: the
authorizing progress frame; on authorization failure the error
response; otherwise the replicating progress frame, and on
replication success the gossip announces for the replicated tips
followed by the `Success` response, on failure the error response.
The terminal frame is sent by the caller after `handle_request`
returns, hence last. -/
def handleRequest (peer urn : String) (authorized : Bool)
    (repl : Except String (List (String × Nat))) : List Event :=
  Event.progress (authorizingMsg peer urn) ::
    (if !authorized then [Event.terminal (Response.error (unauthorizedMsg peer urn))]
     else
       Event.progress (replicatingMsg peer urn) ::
         (match repl with
          | Except.ok refs =>
              gossipEvents peer urn (refs.map Prod.snd) ++
                [Event.terminal (Response.success refs)]
          | Except.error e => [Event.terminal (Response.error (replErrMsg e))]))

/-- The whole server session `request_pull`: a frame that fails to
decode draws a single error response; otherwise the request is
handled. -/
def session (peer : String) (request : Option String) (authorized : Bool)
    (repl : Except String (List (String × Nat))) : List Event :=
  match request with
  | none => [Event.terminal (Response.error (decodeErrMsg peer))]
  | some urn => handleRequest peer urn authorized repl

/-- Terminal-frame discriminator. -/
def isTerminal : Event → Bool
  | Event.terminal _ => true
  | _ => false

/-- Announce discriminator. -/
def isAnnounce : Event → Bool
  | Event.announce _ _ _ _ => true
  | _ => false

end RP

namespace Tracking

theorem lookup_eraseRef_self (l : List (String × Nat)) (name : String) :
    (eraseRef l name).lookup name = none := by
  induction l with
  | nil => rfl
  | cons p l ih =>
      by_cases h : p.1 = name
      · simpa [eraseRef, List.filter_cons, h] using ih
      · have hnp : (name == p.1) = false := by
          simp only [beq_eq_false_iff_ne, ne_eq]
          intro hc; exact h hc.symm
        simp only [eraseRef, List.filter_cons] at *
        rw [if_pos (by simp [h])]
        simp only [List.lookup, hnp]
        exact ih

theorem lookup_eraseRef_ne (l : List (String × Nat)) (n name : String) (hne : n ≠ name) :
    (eraseRef l name).lookup n = l.lookup n := by
  induction l with
  | nil => rfl
  | cons p l ih =>
      simp only [eraseRef, List.filter_cons] at *
      by_cases h : p.1 = name
      · have hnp : (n == p.1) = false := by
          simp only [beq_eq_false_iff_ne, ne_eq]
          intro hc; exact hne (hc.trans h)
        rw [if_neg (by simp [h])]
        simp only [List.lookup, hnp]
        exact ih
      · rw [if_pos (by simp [h])]
        by_cases h2 : n = p.1
        · simp [List.lookup, h2]
        · have hnp : (n == p.1) = false := by simpa using h2
          simp only [List.lookup, hnp]
          exact ih

theorem lookup_mem {α β : Type} [BEq α] [LawfulBEq α] (l : List (α × β)) (a : α) (b : β)
    (h : l.lookup a = some b) : (a, b) ∈ l := by
  induction l with
  | nil => simp [List.lookup] at h
  | cons p l ih =>
      rw [show p = (p.1, p.2) from rfl] at h ⊢
      by_cases he : a = p.1
      · subst he
        simp [List.lookup] at h
        simp [h]
      · have : (a == p.1) = false := by simpa using he
        simp [List.lookup, this] at h
        exact List.mem_cons_of_mem _ (ih h)

/-- C1: on a store with no entry for `(urn, peer)`, a successful
`track(urn, peer, cfg)` returns the created `Ref`, after which
`get(urn, peer)` returns the `Tracked` entry carrying `cfg`; after a
subsequent `untrack(urn, peer)`, `get(urn, peer)` returns `none`. -/
theorem track_get_untrack_roundtrip (s : Store) (urn p : String) (cfg : Config)
    (h : find_reference s (RefName.ofPeer urn (some p)) = none) :
    ((track s urn (some p) cfg).2).isSome = true ∧
    get (track s urn (some p) cfg).1 urn (some p) = some (Tracked.peer urn p cfg) ∧
    get (untrack (track s urn (some p) cfg).1 urn p).1 urn (some p) = none := by
  have h' : find_reference s { urn := urn, remote := Remote.peer p } = none := h
  have hload : load_config s { urn := urn, remote := Remote.peer p } = none := by
    simp [load_config, h']
  have htrack : track s urn (some p) cfg =
      ({ refs := (refNameStr { urn := urn, remote := Remote.peer p }, s.next) ::
            eraseRef s.refs (refNameStr { urn := urn, remote := Remote.peer p })
        , blobs := (s.next, cfg) :: s.blobs
        , next := s.next + 1 },
       some { name := { urn := urn, remote := Remote.peer p }, target := s.next }) := by
    simp [track, RefName.ofPeer, hload, write_config, applyUpdates, applyUpdate]
  rw [htrack]
  refine ⟨rfl, ?_, ?_⟩
  · simp [get, RefName.ofPeer, find_reference, findRef, find_config, List.lookup,
      from_reference]
  · simp [untrack, get, RefName.ofPeer, load_config, find_reference, findRef, find_config,
      List.lookup, applyUpdates, applyUpdate, from_reference, lookup_eraseRef_self]

/-- C1 witness: the roundtrip at a concrete store. -/
theorem track_get_untrack_roundtrip_witness :
    find_reference (Store.mk [] [] 0) (RefName.ofPeer "u" (some "p")) = none ∧
    (((track (Store.mk [] [] 0) "u" (some "p") (Config.mk true Cobs.wildcard)).2).isSome = true ∧
     get (track (Store.mk [] [] 0) "u" (some "p") (Config.mk true Cobs.wildcard)).1 "u" (some "p")
       = some (Tracked.peer "u" "p" (Config.mk true Cobs.wildcard)) ∧
     get (untrack (track (Store.mk [] [] 0) "u" (some "p") (Config.mk true Cobs.wildcard)).1 "u" "p").1
       "u" (some "p") = none) :=
  ⟨by decide,
   track_get_untrack_roundtrip (Store.mk [] [] 0) "u" "p" (Config.mk true Cobs.wildcard) (by decide)⟩

/-- C10: when the tracking reference exists but the config blob it
points to is missing from the object store, `get` reports the entry
as absent (`none`) rather than as an error. -/
theorem get_dangling_blob_none (s : Store) (urn : String) (peer : Option String) (oid : Nat)
    (h1 : find_reference s (RefName.ofPeer urn peer) = some oid)
    (h2 : find_config s oid = none) :
    get s urn peer = none := by
  simp [get, h1, h2]

/-- C10 witness: a store whose only tracking reference dangles. -/
theorem get_dangling_blob_none_witness :
    find_reference (Store.mk [("refs/rad/remotes/u/p", 5)] [] 6)
      (RefName.ofPeer "u" (some "p")) = some 5 ∧
    find_config (Store.mk [("refs/rad/remotes/u/p", 5)] [] 6) 5 = none ∧
    get (Store.mk [("refs/rad/remotes/u/p", 5)] [] 6) "u" (some "p") = none :=
  ⟨by decide, by decide,
   get_dangling_blob_none (Store.mk [("refs/rad/remotes/u/p", 5)] [] 6) "u" (some "p") 5
     (by decide) (by decide)⟩

/-- C4: the code bug. After a successful `track("u", "p", default)`
the entry exists (`is_tracked` is true and `get` returns it), yet
`tracked(db, Some("u"))` yields nothing: `tracked` builds its pattern
from the prefix `refs/rad/remotes}` (tracking.rs line 239, stray
closing brace) which matches no reference written under the canonical
prefix `refs/rad/remotes/`. -/
theorem tracked_prefix_mismatch :
    is_tracked (track (Store.mk [] [] 0) "u" (some "p") Config.defaultConfig).1
      "u" (some "p") = true ∧
    get (track (Store.mk [] [] 0) "u" (some "p") Config.defaultConfig).1 "u" (some "p")
      = some (Tracked.peer "u" "p" Config.defaultConfig) ∧
    tracked (track (Store.mk [] [] 0) "u" (some "p") Config.defaultConfig).1 (some "u") = [] := by
  refine ⟨by decide, by decide, by decide⟩

/-- C3 counterexample: a batch containing `Track{urn, peer}` where
`peer` is the local peer (here the peer a `Repo` with local peer `L`
would reject) does not fail with `SelfReferential`: it creates the
tracking entry.  The batch path (`batch::into_updates`) has no
self-tracking check at all — its `Db` bounds do not even carry the
local peer. -/
theorem batch_self_track_counterexample :
    writeTrack (Repo.mk (Store.mk [] [] 0) "L") "u" (some "L") none
      = Except.error TrackError.selfReferential ∧
    is_tracked (batch (Store.mk [] [] 0)
        [Action.track "u" (some "L") Config.defaultConfig]).1 "u" (some "L") = true ∧
    (batch (Store.mk [] [] 0)
        [Action.track "u" (some "L") Config.defaultConfig]).1 ≠ Store.mk [] [] 0 := by
  refine ⟨rfl, by decide, by decide⟩

/-- C3 (amended): the `SelfReferential` check is performed on the
single-call `track` path of `tracking/write.rs` — `track(urn,
local, cfg)` fails before writing anything — but not on the batch
path: `batch` with a `Track` whose peer equals the local peer and
whose entry is absent succeeds and creates the entry. -/
theorem self_referential_single_call_only :
    (∀ (r : Repo) (urn : String) (cfg : Option Config),
        writeTrack r urn (some r.localPeer) cfg = Except.error TrackError.selfReferential) ∧
    (∀ (s : Store) (urn localPeer : String) (cfg : Config),
        find_reference s (RefName.ofPeer urn (some localPeer)) = none →
        is_tracked (batch s [Action.track urn (some localPeer) cfg]).1
          urn (some localPeer) = true) := by
  constructor
  · intro r urn cfg
    simp [writeTrack]
  · intro s urn localPeer cfg h
    have h' : List.lookup (refNameStr { urn := urn, remote := Remote.peer localPeer }) s.refs
        = none := h
    simp [batch, into_updates, RefName.ofPeer, h', targetFor, List.lookup, write_config,
      applyUpdates, applyUpdate, is_tracked, find_reference, findRef]

/-- C3 witness: the amended theorem at a concrete repo and store. -/
theorem self_referential_single_call_only_witness :
    writeTrack (Repo.mk (Store.mk [] [] 0) "me") "u" (some "me") (some Config.defaultConfig)
      = Except.error TrackError.selfReferential ∧
    (find_reference (Store.mk [] [] 0) (RefName.ofPeer "u" (some "me")) = none ∧
     is_tracked (batch (Store.mk [] [] 0)
        [Action.track "u" (some "me") Config.defaultConfig]).1 "u" (some "me") = true) :=
  ⟨self_referential_single_call_only.1 (Repo.mk (Store.mk [] [] 0) "me") "u"
      (some Config.defaultConfig),
   by decide,
   self_referential_single_call_only.2 (Store.mk [] [] 0) "u" "me" Config.defaultConfig
     (by decide)⟩

/-- C2 counterexample: for the batch `[Untrack(u,p); Update(u,p,c2)]`
on a store where `(u,p)` is tracked, neither action is dropped, yet
the state after `batch` (entry present with `c2`: the `Update`'s
existence check ran against the pre-batch state, and its write lands
after the delete) differs from applying the remaining actions
sequentially through the single-call operations (entry absent: the
sequential `update` is a no-op on the entry the `untrack` just
removed) — under either reading of which actions remain. -/
theorem batch_vs_sequential_counterexample :
    remaining (Store.mk [("refs/rad/remotes/u/p", 0)] [(0, Config.mk true Cobs.wildcard)] 1)
        [Action.untrack "u" "p", Action.update "u" (some "p") (Config.mk false Cobs.wildcard)]
      = [Action.untrack "u" "p", Action.update "u" (some "p") (Config.mk false Cobs.wildcard)] ∧
    get (batch (Store.mk [("refs/rad/remotes/u/p", 0)] [(0, Config.mk true Cobs.wildcard)] 1)
        [Action.untrack "u" "p", Action.update "u" (some "p") (Config.mk false Cobs.wildcard)]).1
        "u" (some "p")
      = some (Tracked.peer "u" "p" (Config.mk false Cobs.wildcard)) ∧
    get (seqOps (Store.mk [("refs/rad/remotes/u/p", 0)] [(0, Config.mk true Cobs.wildcard)] 1)
        [Action.untrack "u" "p", Action.update "u" (some "p") (Config.mk false Cobs.wildcard)])
        "u" (some "p")
      = none ∧
    get (seqOps (Store.mk [("refs/rad/remotes/u/p", 0)] [(0, Config.mk true Cobs.wildcard)] 1)
        [Action.untrack "u" "p"]) "u" (some "p")
      = none := by
  refine ⟨by decide, by decide, by decide, by decide⟩

/-- C8 counterexample: an object carrying the required `data` and
`cobs` keys plus an unknown key `extra` parses successfully — the
parser never rejects unknown top-level keys. -/
theorem parse_unknown_key_counterexample :
    parseConfig (JValue.object
        [("cobs", JValue.strv "*"), ("data", JValue.boolean true), ("extra", JValue.nullv)])
      = Except.ok (Config.mk true Cobs.wildcard) := rfl

/-- C8 (amended): parsing succeeds only for an object whose `data`
and `cobs` keys are present and of the right shapes; unknown
top-level keys are ignored, not rejected — prepending a binding for
any key other than `data` and `cobs` leaves the parse result
unchanged, and a missing required key is what fails. -/
theorem parse_config_unknown_keys_ignored :
    (∀ (kvs : List (String × JValue)) (k : String) (v : JValue),
        k ≠ "data" → k ≠ "cobs" →
        parseConfig (JValue.object ((k, v) :: kvs)) = parseConfig (JValue.object kvs)) ∧
    (∀ kvs : List (String × JValue), kvs.lookup "cobs" = none →
        parseConfig (JValue.object kvs) = Except.error (JsonError.missingKey "cobs")) ∧
    (∀ (kvs : List (String × JValue)) (cv : JValue), kvs.lookup "cobs" = some cv →
        kvs.lookup "data" = none →
        parseConfig (JValue.object kvs) = Except.error (JsonError.missingKey "data")) := by
  refine ⟨?_, ?_, ?_⟩
  · intro kvs k v hd hc
    have h1 : ("cobs" == k) = false := by
      simp only [beq_eq_false_iff_ne, ne_eq]
      intro hx; exact hc hx.symm
    have h2 : ("data" == k) = false := by
      simp only [beq_eq_false_iff_ne, ne_eq]
      intro hx; exact hd hx.symm
    simp [parseConfig, List.lookup, h1, h2]
  · intro kvs h
    simp [parseConfig, h]
  · intro kvs cv h1 h2
    simp [parseConfig, h1, h2]

/-- C8 witness: the amended theorem at a concrete object with the
unknown key `extra`, and at the empty object. -/
theorem parse_config_unknown_keys_witness :
    (("extra" : String) ≠ "data" ∧ ("extra" : String) ≠ "cobs" ∧
     parseConfig (JValue.object
        (("extra", JValue.nullv) :: [("cobs", JValue.strv "*"), ("data", JValue.boolean true)]))
       = parseConfig (JValue.object [("cobs", JValue.strv "*"), ("data", JValue.boolean true)])) ∧
    parseConfig (JValue.object []) = Except.error (JsonError.missingKey "cobs") :=
  ⟨⟨by decide, by decide,
    parse_config_unknown_keys_ignored.1 [("cobs", JValue.strv "*"), ("data", JValue.boolean true)]
      "extra" JValue.nullv (by decide) (by decide)⟩,
   parse_config_unknown_keys_ignored.2.1 [] rfl⟩

end Tracking

namespace RP

theorem gossipEvents_eq_map (peer urn : String) (refs : List (String × Nat)) :
    gossipEvents peer urn (refs.map Prod.snd)
      = refs.map (fun r => Event.announce urn (some r.2) none (some peer)) := by
  simp [gossipEvents, List.map_map]

theorem gossipEvents_no_terminal (peer urn : String) (revs : List Nat) :
    (gossipEvents peer urn revs).filter isTerminal = [] := by
  simp [gossipEvents, isTerminal, List.filter_map, Function.comp]

/-- C9: a request-pull server session whose replication succeeds with
`refs` emits exactly one gossip announce per replicated ref — each
`Announce{urn, rev, origin: None}` excluding the requesting peer —
every announce precedes the terminal `Success{refs}` frame (the
terminal frame is last and nothing before it is terminal), and every
session, whatever its decode, authorization or replication outcome,
emits exactly one terminal frame. -/
theorem request_pull_announces_before_success (peer urn : String)
    (refs : List (String × Nat)) :
    (session peer (some urn) true (Except.ok refs)).filter isAnnounce
      = refs.map (fun r => Event.announce urn (some r.2) none (some peer)) ∧
    (session peer (some urn) true (Except.ok refs)).getLast?
      = some (Event.terminal (Response.success refs)) ∧
    ((session peer (some urn) true (Except.ok refs)).dropLast).filter isTerminal = [] ∧
    (∀ (request : Option String) (authorized : Bool)
        (repl : Except String (List (String × Nat))),
        ((session peer request authorized repl).filter isTerminal).length = 1) := by
  have hsess : session peer (some urn) true (Except.ok refs)
      = (Event.progress (authorizingMsg peer urn) ::
         Event.progress (replicatingMsg peer urn) ::
         gossipEvents peer urn (refs.map Prod.snd)) ++
        [Event.terminal (Response.success refs)] := by
    simp [session, handleRequest]
  refine ⟨?_, ?_, ?_, ?_⟩
  · rw [hsess, gossipEvents_eq_map]
    rw [List.filter_append]
    simp only [List.filter_cons, isAnnounce]
    rw [List.filter_eq_self.mpr ?_]
    · simp [isAnnounce]
    · intro e he
      obtain ⟨r, _, rfl⟩ := List.mem_map.mp he
      rfl
  · rw [hsess]
    exact List.getLast?_concat _
  · rw [hsess, List.dropLast_concat]
    simp only [List.filter_cons, isTerminal]
    exact gossipEvents_no_terminal peer urn _
  · intro request authorized repl
    cases request with
    | none => rfl
    | some u =>
        cases authorized with
        | false => rfl
        | true =>
            cases repl with
            | error e => rfl
            | ok rs =>
                have : session peer (some u) true (Except.ok rs)
                    = (Event.progress (authorizingMsg peer u) ::
                       Event.progress (replicatingMsg peer u) ::
                       gossipEvents peer u (rs.map Prod.snd)) ++
                      [Event.terminal (Response.success rs)] := by
                  simp [session, handleRequest]
                rw [this, List.filter_append]
                simp only [List.filter_cons, isTerminal]
                rw [gossipEvents_no_terminal]
                rfl

end RP

namespace Cob

theorem mem_succs {g : Graph} {n x : Nat} (h : x ∈ succs g n) : (n, x) ∈ g.edges := by
  simp only [succs, List.mem_reverse, List.mem_map] at h
  obtain ⟨e, he, hx⟩ := h
  rw [List.mem_filter] at he
  have h1 : e.1 = n := by simpa using he.2
  have : e = (n, x) := by
    cases e; simp_all
  rw [← this]
  exact he.1

theorem AccReach.mono {g : Graph} {acc acc' : List Nat} {root m : Nat}
    (hsub : ∀ x ∈ acc, x ∈ acc') (h : AccReach g acc root m) : AccReach g acc' root m := by
  induction h with
  | base => exact AccReach.base
  | step _ hp he ih => exact AccReach.step ih (hsub _ hp) he

theorem AccReach.toReach {g : Graph} {acc : List Nat} {root m : Nat}
    (h : AccReach g acc root m) : Reach g root m := by
  induction h with
  | base => exact Reach.base
  | step _ _ he ih => exact Reach.step ih he

theorem tryNode_some {σ : Type} {g : Graph} {applyc : σ → List Nat → Option σ}
    {validSchema : σ → Bool} {st st1 : EvalSt σ} {n : Nat}
    (h : tryNode g applyc validSchema st n = some st1) :
    (nodeAt g n).validSignatures = true ∧
    st1.accepted = st.accepted ++ [n] ∧
    st1.visited = st.visited := by
  unfold tryNode at h
  by_cases h1 : (nodeAt g n).validSignatures
  · simp only [h1, Bool.not_true, Bool.false_eq_true, if_false] at h
    by_cases h2 : (nodeAt g n).authorOk
    · simp only [h2, Bool.not_true, Bool.false_eq_true, if_false] at h
      rcases happ : applyc st.state (nodeAt g n).payload with _ | s'
      · rw [happ] at h; exact absurd h (by simp)
      · rw [happ] at h
        by_cases h3 : validSchema s'
        · simp only [h3, if_true, Option.some.injEq] at h
          refine ⟨h1, ?_, ?_⟩
          · rw [← h]
          · rw [← h]
        · simp [h3] at h
    · simp [h2] at h
  · simp [h1] at h

theorem tryNode_none_of_invalid_sig {σ : Type} {g : Graph}
    {applyc : σ → List Nat → Option σ} {validSchema : σ → Bool} {st : EvalSt σ} {n : Nat}
    (h : (nodeAt g n).validSignatures = false) :
    tryNode g applyc validSchema st n = none := by
  unfold tryNode
  simp [h]

theorem dfsGo_sound {σ : Type} (g : Graph) (applyc : σ → List Nat → Option σ)
    (validSchema : σ → Bool) (root : Nat) :
    ∀ (fuel : Nat) (pending : List Nat) (st : EvalSt σ),
      (∀ m ∈ st.accepted, (nodeAt g m).validSignatures = true ∧
          AccReach g st.accepted root m) →
      (∀ n ∈ pending, n = root ∨ ∃ p ∈ st.accepted, (p, n) ∈ g.edges) →
      ∀ m ∈ (dfsGo g applyc validSchema fuel pending st).accepted,
        (nodeAt g m).validSignatures = true ∧
        AccReach g (dfsGo g applyc validSchema fuel pending st).accepted root m := by
  intro fuel
  induction fuel with
  | zero =>
      intro pending st h1 h2 m hm
      exact h1 m hm
  | succ fuel ih =>
      intro pending st h1 h2 m hm
      cases pending with
      | nil => exact h1 m hm
      | cons n rest =>
          by_cases hv : n ∈ st.visited
          · rw [show dfsGo g applyc validSchema (fuel + 1) (n :: rest) st
                = dfsGo g applyc validSchema fuel rest st by simp [dfsGo, hv]] at hm ⊢
            exact ih rest st h1 (fun x hx => h2 x (List.mem_cons_of_mem _ hx)) m hm
          · rcases htry : tryNode g applyc validSchema
                { st with visited := n :: st.visited } n with _ | st1
            · rw [show dfsGo g applyc validSchema (fuel + 1) (n :: rest) st
                  = dfsGo g applyc validSchema fuel rest { st with visited := n :: st.visited }
                  by simp [dfsGo, hv, htry]] at hm ⊢
              exact ih rest { st with visited := n :: st.visited } h1
                (fun x hx => h2 x (List.mem_cons_of_mem _ hx)) m hm
            · obtain ⟨hsig, hacc, _⟩ := tryNode_some htry
              have hsubset : ∀ x ∈ st.accepted, x ∈ st1.accepted := by
                intro x hx; rw [hacc]; exact List.mem_append_left _ hx
              have hmemn : n ∈ st1.accepted := by
                rw [hacc]; exact List.mem_append_right _ (List.mem_singleton.mpr rfl)
              have h1' : ∀ m' ∈ st1.accepted, (nodeAt g m').validSignatures = true ∧
                  AccReach g st1.accepted root m' := by
                intro m' hm'
                rw [hacc] at hm'
                rcases List.mem_append.mp hm' with hold | hnew
                · obtain ⟨hs, hr⟩ := h1 m' hold
                  exact ⟨hs, hr.mono hsubset⟩
                · have hm'n : n = m' := (List.mem_singleton.mp hnew).symm
                  subst hm'n
                  refine ⟨hsig, ?_⟩
                  rcases h2 n (List.mem_cons_self _ _) with hroot | ⟨p, hp, hedge⟩
                  · subst hroot; exact AccReach.base
                  · exact AccReach.step ((h1 p hp).2.mono hsubset) (hsubset p hp) hedge
              have h2' : ∀ x ∈ succs g n ++ rest,
                  x = root ∨ ∃ p ∈ st1.accepted, (p, x) ∈ g.edges := by
                intro x hx
                rcases List.mem_append.mp hx with hs | hr
                · exact Or.inr ⟨n, hmemn, mem_succs hs⟩
                · rcases h2 x (List.mem_cons_of_mem _ hr) with hroot | ⟨p, hp, hedge⟩
                  · exact Or.inl hroot
                  · exact Or.inr ⟨p, hsubset p hp, hedge⟩
              rw [show dfsGo g applyc validSchema (fuel + 1) (n :: rest) st
                  = dfsGo g applyc validSchema fuel (succs g n ++ rest) st1
                  by simp [dfsGo, hv, htry]] at hm ⊢
              exact ih (succs g n ++ rest) st1 h1' h2' m hm

/-- C5 (amended): during `evaluate`, a change with an invalid
signature is pruned — it is never accepted, and every accepted node
is reachable from the DFS origin through a chain of accepted nodes.
Hence a node whose every path from the origin passes through a
pruned change (in particular one below an invalid-signature change
with no other path) is excluded from the materialized history; a
descendant that is also reachable entirely through accepted changes
is, however, still visited and materialized (see the
counterexample), so pruning a node does not remove all of its
descendants. -/
theorem evaluate_accepted_sound {σ : Type} (g : Graph) (applyc : σ → List Nat → Option σ)
    (validSchema : σ → Bool) (init : σ) (n : Nat)
    (hn : n ∈ (evaluate g applyc validSchema init).accepted) :
    (nodeAt g n).validSignatures = true ∧
    ∃ root, originOf g = some root ∧
      AccReach g (evaluate g applyc validSchema init).accepted root n := by
  rcases horig : originOf g with _ | root
  · rw [evaluate, horig] at hn
    simp at hn
  · rw [evaluate, horig] at hn ⊢
    have := dfsGo_sound g applyc validSchema root (fuelOf g) [root]
      { visited := [], accepted := [], state := init, history := [] }
      (by intro m hm; simp at hm)
      (by intro x hx
          rw [List.mem_singleton] at hx
          exact Or.inl hx)
      n hn
    exact ⟨this.1, root, rfl, this.2⟩

/-- C5 witness: the soundness theorem at the diamond graph, node 3. -/
theorem evaluate_accepted_sound_witness :
    3 ∈ (evaluate diamondGraph unitApply unitValid ()).accepted ∧
    ((nodeAt diamondGraph 3).validSignatures = true ∧
     ∃ root, originOf diamondGraph = some root ∧
       AccReach diamondGraph (evaluate diamondGraph unitApply unitValid ()).accepted root 3) :=
  ⟨by decide, evaluate_accepted_sound diamondGraph unitApply unitValid () 3 (by decide)⟩

/-- C5 counterexample: in the diamond graph, node 2 has an invalid
signature and an edge to node 3, yet node 3 — a descendant of the
pruned node 2, but also a child of the accepted node 1 — is accepted,
and its payload `[13]` is materialized.  Pruning a node does not
prune all of its descendants. -/
theorem prune_descendant_counterexample :
    (nodeAt diamondGraph 2).validSignatures = false ∧
    (2, 3) ∈ diamondGraph.edges ∧
    (evaluate diamondGraph unitApply unitValid ()).accepted = [0, 1, 3] ∧
    (evaluate diamondGraph unitApply unitValid ()).history = [10, 11, 13] := by
  refine ⟨by decide, by decide, by decide, by decide⟩

/-- C6 (amended): `evaluate` sorts the root *node indices* (insertion
order), not the Oids: the DFS origin is the least-index root, and
only nodes reachable from that origin can be materialized. -/
theorem evaluate_origin_least_root {σ : Type} (g : Graph) (applyc : σ → List Nat → Option σ)
    (validSchema : σ → Bool) (init : σ) (o : Nat)
    (ho : originOf g = some o) :
    o ∈ rootsOf g ∧ (∀ r ∈ rootsOf g, o ≤ r) ∧
    (∀ n ∈ (evaluate g applyc validSchema init).accepted, Reach g o n) := by
  have hperm := List.perm_insertionSort (α := Nat) (· ≤ ·) (rootsOf g)
  have hsorted := List.sorted_insertionSort (α := Nat) (· ≤ ·) (rootsOf g)
  rcases hs : sortIndices (rootsOf g) with _ | ⟨a, l⟩
  · rw [originOf, hs] at ho; exact absurd ho (by simp)
  · have hao : a = o := by
      rw [originOf, hs] at ho
      simpa using ho
    subst hao
    rw [sortIndices] at hs
    rw [hs] at hperm hsorted
    refine ⟨?_, ?_, ?_⟩
    · exact hperm.mem_iff.mp (List.mem_cons_self _ _)
    · intro r hr
      rcases List.mem_cons.mp (hperm.mem_iff.mpr hr) with hra | hrl
      · exact le_of_eq hra.symm
      · have := List.rel_of_sorted_cons hsorted r hrl
        simpa using this
    · intro n hn
      rw [evaluate, ho] at hn
      have := dfsGo_sound g applyc validSchema a (fuelOf g) [a]
        { visited := [], accepted := [], state := init, history := [] }
        (by intro m hm; simp at hm)
        (by intro x hx
            rw [List.mem_singleton] at hx
            exact Or.inl hx)
        n hn
      exact this.2.toReach

/-- C6 witness: the amended theorem at the two-root graph. -/
theorem evaluate_origin_least_root_witness :
    originOf twoRootGraph = some 0 ∧
    (0 ∈ rootsOf twoRootGraph ∧ (∀ r ∈ rootsOf twoRootGraph, 0 ≤ r) ∧
     (∀ n ∈ (evaluate twoRootGraph unitApply unitValid ()).accepted, Reach twoRootGraph 0 n)) :=
  ⟨by decide, evaluate_origin_least_root twoRootGraph unitApply unitValid () 0 (by decide)⟩

/-- C6 counterexample: `twoRootGraph` has the two roots node 0
(commit Oid 5, inserted first) and node 1 (commit Oid 3, inserted
second).  The lexicographically first root by Oid is node 1, whose
payload is `[2]`; but `evaluate` takes node 0 — the first by node
index — as the DFS origin: the accepted set is `[0]` and the history
`[1]`.  The roots are not ordered by Oid. -/
theorem origin_not_oid_sorted_counterexample :
    rootsOf twoRootGraph = [0, 1] ∧
    (nodeAt twoRootGraph 0).commit = 5 ∧
    (nodeAt twoRootGraph 1).commit = 3 ∧
    (evaluate twoRootGraph unitApply unitValid ()).accepted = [0] ∧
    (evaluate twoRootGraph unitApply unitValid ()).history = [1] := by
  refine ⟨by decide, by decide, by decide, by decide, by decide⟩

theorem lookup_cons_hit {α β : Type} [BEq α] [LawfulBEq α] (a : α) (b : β) (l : List (α × β)) :
    List.lookup a ((a, b) :: l) = some b := by
  simp [List.lookup]

theorem lookup_cons_miss {α β : Type} [BEq α] [LawfulBEq α] {a k : α} (b : β)
    (l : List (α × β)) (h : a ≠ k) : List.lookup a ((k, b) :: l) = List.lookup a l := by
  have : (a == k) = false := by simpa using h
  simp [List.lookup, this]

theorem mem_tipIndices {g : Graph} {i : Nat} :
    i ∈ tipIndices g ↔ i < g.nodes.length ∧ hasOutgoing g i = false := by
  simp [tipIndices, List.mem_filter, List.mem_range]

theorem foldl_add_edge_spec (g : Graph) (c : Change)
    (hfresh : g.nodeIndices.lookup c.commit = none) :
    ∀ (ps : List (Nat × Nat)) (acc : Graph),
      acc.nodeIndices = (c.commit, g.nodes.length) :: g.nodeIndices →
      (∀ p ∈ ps, g.nodeIndices.lookup p.1 = some p.2) →
      (∀ p ∈ ps, (p.2, g.nodes.length) ∉ acc.edges) →
      (ps.map Prod.snd).Nodup →
      ps.foldl (fun acc2 p => add_edge acc2 c.commit p.1) acc
        = { acc with edges := acc.edges ++ ps.map (fun p => (p.2, g.nodes.length)) } := by
  intro ps
  induction ps with
  | nil => intro acc _ _ _ _; simp
  | cons p ps ih =>
      intro acc hidx hlk hnotin hnodup
      have hp1 : p.1 ≠ c.commit := by
        intro he
        have := hlk p (List.mem_cons_self _ _)
        rw [he, hfresh] at this
        exact absurd this (by simp)
      have hchild : acc.nodeIndices.lookup c.commit = some g.nodes.length := by
        rw [hidx]; exact lookup_cons_hit _ _ _
      have hparent : acc.nodeIndices.lookup p.1 = some p.2 := by
        rw [hidx, lookup_cons_miss _ _ hp1]
        exact hlk p (List.mem_cons_self _ _)
      have hstep : add_edge acc c.commit p.1
          = { acc with edges := acc.edges ++ [(p.2, g.nodes.length)] } := by
        unfold add_edge update_edge
        rw [hchild, hparent]
        simp only [Option.getD_some]
        rw [if_neg (hnotin p (List.mem_cons_self _ _))]
      have hnodup' : (ps.map Prod.snd).Nodup := (List.nodup_cons.mp hnodup).2
      have hp2 : p.2 ∉ ps.map Prod.snd := (List.nodup_cons.mp hnodup).1
      have := ih ({ acc with edges := acc.edges ++ [(p.2, g.nodes.length)] })
        (by simpa using hidx)
        (fun q hq => hlk q (List.mem_cons_of_mem _ hq))
        (by
          intro q hq
          simp only [List.mem_append, List.mem_singleton]
          push_neg
          refine ⟨hnotin q (List.mem_cons_of_mem _ hq), ?_⟩
          intro he
          apply hp2
          rw [List.mem_map]
          exact ⟨q, hq, by
            have : q.2 = p.2 := by
              have := congrArg Prod.fst he
              simpa using this
            exact this⟩)
        hnodup'
      calc (p :: ps).foldl (fun acc2 q => add_edge acc2 c.commit q.1) acc
          = ps.foldl (fun acc2 q => add_edge acc2 c.commit q.1)
              { acc with edges := acc.edges ++ [(p.2, g.nodes.length)] } := by
            rw [List.foldl_cons, hstep]
        _ = { acc with edges := (acc.edges ++ [(p.2, g.nodes.length)])
                ++ ps.map (fun q => (q.2, g.nodes.length)) } := this
        _ = { acc with edges := acc.edges
                ++ (p :: ps).map (fun q => (q.2, g.nodes.length)) } := by
            rw [List.append_assoc]
            rfl

theorem extend_fresh (g : Graph) (c : Change) (hwf : WFGraph g)
    (hfresh : g.nodeIndices.lookup c.commit = none) :
    extend g c = { nodeIndices := (c.commit, g.nodes.length) :: g.nodeIndices
                 , nodes := g.nodes ++ [c]
                 , edges := g.edges ++ (tipIndices g).map (fun i => (i, g.nodes.length)) } := by
  have hadd : add_change g c = { nodeIndices := (c.commit, g.nodes.length) :: g.nodeIndices
                               , nodes := g.nodes ++ [c]
                               , edges := g.edges } := by
    unfold add_change
    rw [hfresh]
  have htips : tips g = ((tipIndices g).map (fun i => ((nodeAt g i).commit, i))).map Prod.fst := by
    rw [List.map_map]
    rfl
  have hspec := foldl_add_edge_spec g c hfresh
    ((tipIndices g).map (fun i => ((nodeAt g i).commit, i)))
    (add_change g c)
    (by rw [hadd])
    (by
      intro p hp
      rw [List.mem_map] at hp
      obtain ⟨i, hi, rfl⟩ := hp
      exact hwf.1 i (by
        rw [List.mem_range]
        exact (mem_tipIndices.mp hi).1))
    (by
      intro p hp
      rw [List.mem_map] at hp
      obtain ⟨i, hi, rfl⟩ := hp
      rw [hadd]
      intro hmem
      have := (hwf.2.2 _ hmem).2
      simp at this)
    (by
      have hsnd : ((tipIndices g).map (fun i => ((nodeAt g i).commit, i))).map Prod.snd
          = tipIndices g := by
        rw [List.map_map]
        show List.map (fun a => a) (tipIndices g) = tipIndices g
        exact List.map_id' _
      rw [hsnd]
      exact (List.nodup_range _).filter _)
  calc extend g c
      = (tips g).foldl (fun acc tip => add_edge acc c.commit tip) (add_change g c) := rfl
    _ = (((tipIndices g).map (fun i => ((nodeAt g i).commit, i))).map Prod.fst).foldl
          (fun acc tip => add_edge acc c.commit tip) (add_change g c) := by rw [htips]
    _ = ((tipIndices g).map (fun i => ((nodeAt g i).commit, i))).foldl
          (fun acc p => add_edge acc c.commit p.1) (add_change g c) := by
        rw [List.foldl_map]
    _ = { add_change g c with
          edges := (add_change g c).edges
            ++ ((tipIndices g).map (fun i => ((nodeAt g i).commit, i))).map
                (fun p => (p.2, g.nodes.length)) } := hspec
    _ = { nodeIndices := (c.commit, g.nodes.length) :: g.nodeIndices
        , nodes := g.nodes ++ [c]
        , edges := g.edges ++ (tipIndices g).map (fun i => (i, g.nodes.length)) } := by
        rw [hadd]
        simp only [List.map_map]
        rfl

theorem filter_range_succ_last (n : Nat) (p : Nat → Bool)
    (h1 : ∀ i, i < n → p i = false) (h2 : p n = true) :
    (List.range (n + 1)).filter p = [n] := by
  rw [List.range_succ, List.filter_append]
  have e1 : (List.range n).filter p = [] := by
    rw [List.filter_eq_nil_iff]
    intro a ha
    rw [List.mem_range] at ha
    simp [h1 a ha]
  rw [e1]
  simp [List.filter_cons, h2]

theorem tipIndices_extend_fresh (g : Graph) (c : Change) (hwf : WFGraph g)
    (hfresh : g.nodeIndices.lookup c.commit = none) :
    tipIndices (extend g c) = [g.nodes.length] := by
  have hnodes : (extend g c).nodes = g.nodes ++ [c] := by
    rw [extend_fresh g c hwf hfresh]
  have hedges : (extend g c).edges
      = g.edges ++ (tipIndices g).map (fun i => (i, g.nodes.length)) := by
    rw [extend_fresh g c hwf hfresh]
  unfold tipIndices
  rw [hnodes]
  rw [show (g.nodes ++ [c]).length = g.nodes.length + 1 by simp]
  apply filter_range_succ_last
  · intro i hi
    have hout : hasOutgoing (extend g c) i = true := by
      unfold hasOutgoing
      rw [hedges, List.any_eq_true]
      by_cases hg : hasOutgoing g i = true
      · unfold hasOutgoing at hg
        rw [List.any_eq_true] at hg
        obtain ⟨e, he, hpe⟩ := hg
        exact ⟨e, List.mem_append_left _ he, hpe⟩
      · have htip : i ∈ tipIndices g := mem_tipIndices.mpr ⟨hi, by simpa using hg⟩
        refine ⟨(i, g.nodes.length),
          List.mem_append_right _ (List.mem_map.mpr ⟨i, htip, rfl⟩), by simp⟩
    simp [hout]
  · have hout : hasOutgoing (extend g c) g.nodes.length = false := by
      unfold hasOutgoing
      rw [hedges]
      rw [List.any_eq_false]
      intro e he
      rcases List.mem_append.mp he with hge | hme
      · have := (hwf.2.2 e hge).1
        simp only [decide_eq_true_eq]
        omega
      · obtain ⟨i, hi, rfl⟩ := List.mem_map.mp hme
        have := (mem_tipIndices.mp hi).1
        simp only [decide_eq_true_eq]
        omega
    simp [hout]

theorem nodeAt_extend_new (g : Graph) (c : Change) (hwf : WFGraph g)
    (hfresh : g.nodeIndices.lookup c.commit = none) :
    nodeAt (extend g c) g.nodes.length = c := by
  have hnodes : (extend g c).nodes = g.nodes ++ [c] := by
    rw [extend_fresh g c hwf hfresh]
  unfold nodeAt
  rw [hnodes, List.get?_concat_length]
  rfl

/-- C7 (amended): adding the same (previously fresh) change twice via
`extend` creates only one node — the second `add_change` is a no-op
through the Oid keyed `node_indices` — but not zero new edges: at
the second call the sole tip is the change itself, so `extend` adds
exactly one self-loop edge on it, beyond the one edge per
tip-at-first-extension added by the first call. -/
theorem extend_twice_self_loop (g : Graph) (c : Change) (hwf : WFGraph g)
    (hfresh : g.nodeIndices.lookup c.commit = none) :
    (extend (extend g c) c).nodes = (extend g c).nodes ∧
    (extend (extend g c) c).nodeIndices = (extend g c).nodeIndices ∧
    (extend (extend g c) c).edges
      = (extend g c).edges ++ [(g.nodes.length, g.nodes.length)] := by
  have hg1 := extend_fresh g c hwf hfresh
  have htipsIdx := tipIndices_extend_fresh g c hwf hfresh
  have htips : tips (extend g c) = [c.commit] := by
    unfold tips
    rw [htipsIdx]
    simp only [List.map_cons, List.map_nil]
    rw [nodeAt_extend_new g c hwf hfresh]
  have hlkup : (extend g c).nodeIndices.lookup c.commit = some g.nodes.length := by
    rw [hg1]; exact lookup_cons_hit _ _ _
  have haddc : add_change (extend g c) c = extend g c := by
    unfold add_change
    rw [hlkup]
  have hnotin : (g.nodes.length, g.nodes.length) ∉ (extend g c).edges := by
    rw [hg1]
    intro hmem
    simp only at hmem
    rcases List.mem_append.mp hmem with hge | hme
    · have := (hwf.2.2 _ hge).1
      simp only at this
      omega
    · rw [List.mem_map] at hme
      obtain ⟨i, hi, heq⟩ := hme
      have hilt := (mem_tipIndices.mp hi).1
      have : i = g.nodes.length := by
        have := congrArg Prod.fst heq
        simpa using this
      omega
  have hedge : add_edge (extend g c) c.commit c.commit
      = { extend g c with
          edges := (extend g c).edges ++ [(g.nodes.length, g.nodes.length)] } := by
    unfold add_edge update_edge
    rw [hlkup]
    simp only [Option.getD_some]
    rw [if_neg hnotin]
  have hfinal : extend (extend g c) c
      = { extend g c with
          edges := (extend g c).edges ++ [(g.nodes.length, g.nodes.length)] } := by
    show (tips (extend g c)).foldl (fun acc tip => add_edge acc c.commit tip)
        (add_change (extend g c) c) = _
    rw [htips, haddc]
    simp only [List.foldl_cons, List.foldl_nil]
    exact hedge
  rw [hfinal]
  exact ⟨rfl, rfl, rfl⟩

/-- C7 witness: the amended theorem on a one-node graph extended
twice with the same fresh change. -/
theorem extend_twice_self_loop_witness :
    WFGraph (extend Graph.empty (Change.mk 1 true true [1])) ∧
    (extend Graph.empty (Change.mk 1 true true [1])).nodeIndices.lookup 2 = none ∧
    ((extend (extend (extend Graph.empty (Change.mk 1 true true [1]))
          (Change.mk 2 true true [2])) (Change.mk 2 true true [2])).nodes
        = (extend (extend Graph.empty (Change.mk 1 true true [1]))
            (Change.mk 2 true true [2])).nodes ∧
     (extend (extend (extend Graph.empty (Change.mk 1 true true [1]))
          (Change.mk 2 true true [2])) (Change.mk 2 true true [2])).nodeIndices
        = (extend (extend Graph.empty (Change.mk 1 true true [1]))
            (Change.mk 2 true true [2])).nodeIndices ∧
     (extend (extend (extend Graph.empty (Change.mk 1 true true [1]))
          (Change.mk 2 true true [2])) (Change.mk 2 true true [2])).edges
        = (extend (extend Graph.empty (Change.mk 1 true true [1]))
            (Change.mk 2 true true [2])).edges ++
          [((extend Graph.empty (Change.mk 1 true true [1])).nodes.length,
            (extend Graph.empty (Change.mk 1 true true [1])).nodes.length)]) :=
  ⟨by decide, by decide,
   extend_twice_self_loop (extend Graph.empty (Change.mk 1 true true [1]))
     (Change.mk 2 true true [2]) (by decide) (by decide)⟩

/-- C7 counterexample: extending a one-node graph with a fresh change
creates one node and one edge; extending again with the same change
creates no node but does create a second edge — the self-loop
`(1, 1)` — so the second call is not free of new edges. -/
theorem extend_twice_counterexample :
    (extend (extend Graph.empty (Change.mk 1 true true [1]))
        (Change.mk 2 true true [2])).edges = [(0, 1)] ∧
    (extend (extend (extend Graph.empty (Change.mk 1 true true [1]))
        (Change.mk 2 true true [2])) (Change.mk 2 true true [2])).edges
      = [(0, 1), (1, 1)] ∧
    (extend (extend (extend Graph.empty (Change.mk 1 true true [1]))
        (Change.mk 2 true true [2])) (Change.mk 2 true true [2])).nodes.length = 2 := by
  refine ⟨by decide, by decide, by decide⟩

end Cob

namespace Tracking

theorem get_eq_obs (s : Store) (urn : String) (peer : Option String) :
    get s urn peer
      = (obs s (refNameStr (RefName.ofPeer urn peer))).map
          (from_reference (RefName.ofPeer urn peer)) := by
  unfold get obs find_reference
  rcases h : findRef s (refNameStr (RefName.ofPeer urn peer)) with _ | t
  · simp [h]
  · rcases hc : find_config s t with _ | config
    · simp [h, hc]
    · simp [h, hc]

theorem applyActObs_congr (f g : String → Option Config) (a : Action)
    (h : ∀ n, f n = g n) (n : String) :
    applyActObs f a n = applyActObs g a n := by
  unfold applyActObs
  by_cases hn : n = refNameStr (actionName a)
  · rw [if_pos hn, if_pos hn]
  · rw [if_neg hn, if_neg hn]
    exact h n

theorem obsFold_congr (as : List Action) :
    ∀ (f g : String → Option Config), (∀ n, f n = g n) →
      ∀ n, obsFold f as n = obsFold g as n := by
  induction as with
  | nil => intro f g h n; exact h n
  | cons a as ih =>
      intro f g h n
      exact ih (applyActObs f a) (applyActObs g a) (applyActObs_congr f g a h) n

theorem applyUncond_track_eq (s : Store) (urn : String) (peer : Option String)
    (config : Config) :
    applyUncond s (Action.track urn peer config)
      = { refs := (refNameStr (RefName.ofPeer urn peer), s.next)
            :: eraseRef s.refs (refNameStr (RefName.ofPeer urn peer))
        , blobs := (s.next, config) :: s.blobs
        , next := s.next + 1 } := by
  simp [applyUncond, write_config, applyUpdates, applyUpdate]

theorem applyUncond_update_eq (s : Store) (urn : String) (peer : Option String)
    (config : Config) :
    applyUncond s (Action.update urn peer config)
      = { refs := (refNameStr (RefName.ofPeer urn peer), s.next)
            :: eraseRef s.refs (refNameStr (RefName.ofPeer urn peer))
        , blobs := (s.next, config) :: s.blobs
        , next := s.next + 1 } := by
  simp [applyUncond, write_config, applyUpdates, applyUpdate]

theorem applyUncond_untrack_eq (s : Store) (urn peer : String) :
    applyUncond s (Action.untrack urn peer)
      = { refs := eraseRef s.refs (refNameStr { urn := urn, remote := Remote.peer peer })
        , blobs := s.blobs
        , next := s.next } := by
  simp [applyUncond, applyUpdates, applyUpdate]

theorem WFStore_applyUncond (s : Store) (a : Action) (hwf : WFStore s) :
    WFStore (applyUncond s a) := by
  obtain ⟨hr, hb⟩ := hwf
  cases a with
  | track urn peer config =>
      rw [applyUncond_track_eq]
      constructor
      · intro p hp
        rcases List.mem_cons.mp hp with rfl | hp'
        · simp
        · have := hr p (List.mem_of_mem_filter hp')
          simp only
          omega
      · intro b hbm
        rcases List.mem_cons.mp hbm with rfl | hb'
        · simp
        · have := hb b hb'
          simp only
          omega
  | untrack urn peer =>
      rw [applyUncond_untrack_eq]
      constructor
      · intro p hp
        exact hr p (List.mem_of_mem_filter hp)
      · intro b hbm
        exact hb b hbm
  | update urn peer config =>
      rw [applyUncond_update_eq]
      constructor
      · intro p hp
        rcases List.mem_cons.mp hp with rfl | hp'
        · simp
        · have := hr p (List.mem_of_mem_filter hp')
          simp only
          omega
      · intro b hbm
        rcases List.mem_cons.mp hbm with rfl | hb'
        · simp
        · have := hb b hb'
          simp only
          omega

theorem obs_write_cons (s : Store) (name : String) (config : Config) (hwf : WFStore s)
    (n : String) :
    obs { refs := (name, s.next) :: eraseRef s.refs name
        , blobs := (s.next, config) :: s.blobs
        , next := s.next + 1 } n
      = if n = name then some config else obs s n := by
  by_cases hn : n = name
  · subst hn
    rw [if_pos rfl]
    unfold obs findRef find_config
    rw [Cob.lookup_cons_hit]
    simp [Cob.lookup_cons_hit]
  · rw [if_neg hn]
    unfold obs findRef find_config
    simp only
    rw [Cob.lookup_cons_miss _ _ hn, lookup_eraseRef_ne _ _ _ hn]
    rcases h : s.refs.lookup n with _ | t
    · rfl
    · have ht : t < s.next := hwf.1 (n, t) (lookup_mem _ _ _ h)
      simp only [Option.some_bind]
      exact Cob.lookup_cons_miss _ _ (Nat.ne_of_lt ht)

theorem obs_applyUncond (s : Store) (a : Action) (hwf : WFStore s) (n : String) :
    obs (applyUncond s a) n = applyActObs (obs s) a n := by
  cases a with
  | track urn peer config =>
      rw [applyUncond_track_eq, obs_write_cons s _ config hwf n]
      unfold applyActObs actionName
      rfl
  | untrack urn peer =>
      rw [applyUncond_untrack_eq]
      unfold applyActObs actionName
      by_cases hn : n = refNameStr { urn := urn, remote := Remote.peer peer }
      · rw [if_pos hn]
        subst hn
        unfold obs findRef
        rw [lookup_eraseRef_self]
        rfl
      · rw [if_neg hn]
        unfold obs findRef
        simp only
        rw [lookup_eraseRef_ne _ _ _ hn]
        rfl
  | update urn peer config =>
      rw [applyUncond_update_eq, obs_write_cons s _ config hwf n]
      unfold applyActObs actionName
      rfl

theorem obs_seqUncond (as : List Action) :
    ∀ s : Store, WFStore s → ∀ n, obs (seqUncond s as) n = obsFold (obs s) as n := by
  induction as with
  | nil => intro s _ n; rfl
  | cons a as ih =>
      intro s hwf n
      show obs (seqUncond (applyUncond s a) as) n = obsFold (applyActObs (obs s) a) as n
      rw [ih (applyUncond s a) (WFStore_applyUncond s a hwf) n]
      exact obsFold_congr as _ _ (obs_applyUncond s a hwf) n

theorem applyUpdates_len (s : Store) : ∀ us : List Update,
    (applyUpdates s us).2.length = us.length := by
  intro us
  induction us generalizing s with
  | nil => rfl
  | cons u us ih =>
      unfold applyUpdates
      simp [ih]

end Tracking

namespace Tracking

theorem remaining_cons_drop (s0 : Store) (a : Action) (rest : List Action)
    (h : keeps s0 a = false) : remaining s0 (a :: rest) = remaining s0 rest := by
  simp [remaining, List.filter_cons, h]

theorem remaining_cons_keep (s0 : Store) (a : Action) (rest : List Action)
    (h : keeps s0 a = true) : remaining s0 (a :: rest) = a :: remaining s0 rest := by
  simp [remaining, List.filter_cons, h]

theorem obs_retarget (s : Store) (name : String) (t : Nat) (config : Config)
    (h : find_config s t = some config) (n : String) :
    obs { s with refs := (name, t) :: eraseRef s.refs name } n
      = if n = name then some config else obs s n := by
  by_cases hn : n = name
  · subst hn
    rw [if_pos rfl]
    unfold obs findRef
    simp only
    rw [Cob.lookup_cons_hit]
    simpa using h
  · rw [if_neg hn]
    unfold obs findRef
    simp only
    rw [Cob.lookup_cons_miss _ _ hn, lookup_eraseRef_ne _ _ _ hn]
    rfl

theorem obs_delete (s : Store) (name : String) (n : String) :
    obs { s with refs := eraseRef s.refs name } n = if n = name then none else obs s n := by
  by_cases hn : n = name
  · subst hn
    rw [if_pos rfl]
    unfold obs findRef
    simp only
    rw [lookup_eraseRef_self]
    rfl
  · rw [if_neg hn]
    unfold obs findRef
    simp only
    rw [lookup_eraseRef_ne _ _ _ hn]
    rfl

theorem applyUpdates_cons_write (s2 : Store) (name : RefName) (t : Nat)
    (us : List Update) :
    (applyUpdates s2 (Update.write name t :: us)).1
      = (applyUpdates (Store.mk ((refNameStr name, t) :: eraseRef s2.refs (refNameStr name))
          s2.blobs s2.next) us).1 := rfl

theorem applyUpdates_cons_delete (s2 : Store) (name : RefName) (us : List Update) :
    (applyUpdates s2 (Update.delete name :: us)).1
      = (applyUpdates (Store.mk (eraseRef s2.refs (refNameStr name))
          s2.blobs s2.next) us).1 := rfl

theorem applyUpdates_obs (s0 : Store) :
    ∀ (xs : List Action) (us : List Update) (s2 : Store),
      UpdsFor (find_config s2) s0 xs us →
      ∀ n, obs (applyUpdates s2 us).1 n = obsFold (obs s2) (remaining s0 xs) n := by
  intro xs
  induction xs with
  | nil =>
      intro us s2 h n
      cases h
      rfl
  | cons a rest ih =>
      intro us s2 h n
      cases h with
      | trackDrop h1 h2 =>
          rw [remaining_cons_drop s0 _ rest (by simp [keeps, h1])]
          exact ih _ s2 h2 n
      | @trackKeep urn peer config rest2 us2 t h1 h2 h3 =>
          rw [remaining_cons_keep s0 _ rest (by simp [keeps, h1])]
          rw [applyUpdates_cons_write]
          rw [ih us2 (Store.mk ((refNameStr (RefName.ofPeer urn peer), t)
              :: eraseRef s2.refs (refNameStr (RefName.ofPeer urn peer))) s2.blobs s2.next) h3 n]
          refine obsFold_congr _ _ _ (fun n' => ?_) n
          rw [obs_retarget s2 (refNameStr (RefName.ofPeer urn peer)) t config h2 n']
          unfold applyActObs actionName
          rfl
      | @untrackKeep urn peer rest2 us2 h2 =>
          rw [remaining_cons_keep s0 _ rest (by simp [keeps])]
          rw [applyUpdates_cons_delete]
          rw [ih us2 (Store.mk (eraseRef s2.refs
              (refNameStr (RefName.mk urn (Remote.peer peer)))) s2.blobs s2.next) h2 n]
          refine obsFold_congr _ _ _ (fun n' => ?_) n
          rw [obs_delete s2 (refNameStr (RefName.mk urn (Remote.peer peer))) n']
          unfold applyActObs actionName
          rfl
      | updateDrop h1 h2 =>
          rw [remaining_cons_drop s0 _ rest (by simp [keeps, h1])]
          exact ih _ s2 h2 n
      | @updateKeep urn peer config rest2 us2 t h1 h2 h3 =>
          rw [remaining_cons_keep s0 _ rest (by simp [keeps, h1])]
          rw [applyUpdates_cons_write]
          rw [ih us2 (Store.mk ((refNameStr (RefName.ofPeer urn peer), t)
              :: eraseRef s2.refs (refNameStr (RefName.ofPeer urn peer))) s2.blobs s2.next) h3 n]
          refine obsFold_congr _ _ _ (fun n' => ?_) n
          rw [obs_retarget s2 (refNameStr (RefName.ofPeer urn peer)) t config h2 n']
          unfold applyActObs actionName
          rfl

theorem find_reference_congr (s s' : Store) (h : s.refs = s'.refs) (name : RefName) :
    find_reference s name = find_reference s' name := by
  unfold find_reference findRef
  rw [h]

theorem into_updates_spec (s0 : Store) (xs : List Action) :
    ∀ (s : Store) (seen : List (Config × Nat)),
      s.refs = s0.refs → WFStore s → CacheOK s seen →
      (into_updates s seen xs).1.refs = s0.refs ∧
      WFStore (into_updates s seen xs).1 ∧
      s.next ≤ (into_updates s seen xs).1.next ∧
      (∀ o, o < s.next → find_config (into_updates s seen xs).1 o = find_config s o) ∧
      UpdsFor (find_config (into_updates s seen xs).1) s0 xs (into_updates s seen xs).2 ∧
      (into_updates s seen xs).2.length = (remaining s0 xs).length := by
  induction xs with
  | nil =>
      intro s seen h1 h2 _
      exact ⟨h1, h2, le_refl _, fun o _ => rfl, UpdsFor.nil, rfl⟩
  | cons a rest ih =>
      intro s seen h1 h2 h3
      cases a with
      | track urn peer config =>
          rcases hfr : find_reference s (RefName.ofPeer urn peer) with _ | t0
          · -- entry absent at batch start: the Track is kept
            have hfr0 : find_reference s0 (RefName.ofPeer urn peer) = none := by
              rw [← find_reference_congr s s0 h1]
              exact hfr
            rcases hc : List.lookup config seen with _ | t
            · -- blob cache miss: a fresh blob is written
              have e1 : targetFor s seen config
                  = (s.next, Store.mk s.refs ((s.next, config) :: s.blobs) (s.next + 1),
                     (config, s.next) :: seen) := by
                simp [targetFor, hc, write_config]
              have efst : (into_updates s seen (Action.track urn peer config :: rest)).1
                  = (into_updates (Store.mk s.refs ((s.next, config) :: s.blobs) (s.next + 1))
                      ((config, s.next) :: seen) rest).1 := by
                simp only [into_updates, hfr, e1]
              have esnd : (into_updates s seen (Action.track urn peer config :: rest)).2
                  = Update.write (RefName.ofPeer urn peer) s.next
                    :: (into_updates (Store.mk s.refs ((s.next, config) :: s.blobs)
                        (s.next + 1)) ((config, s.next) :: seen) rest).2 := by
                simp only [into_updates, hfr, e1]
              have hwf1 : WFStore (Store.mk s.refs ((s.next, config) :: s.blobs)
                  (s.next + 1)) := by
                constructor
                · intro p hp
                  have := h2.1 p hp
                  simp only
                  omega
                · intro b hbm
                  rcases List.mem_cons.mp hbm with rfl | hb'
                  · simp
                  · have := h2.2 b hb'
                    simp only
                    omega
              have hcache1 : CacheOK (Store.mk s.refs ((s.next, config) :: s.blobs)
                  (s.next + 1)) ((config, s.next) :: seen) := by
                intro q hq
                rcases List.mem_cons.mp hq with rfl | hq'
                · refine ⟨by simp, ?_⟩
                  unfold find_config
                  exact Cob.lookup_cons_hit _ _ _
                · obtain ⟨hlt, hfc⟩ := h3 q hq'
                  refine ⟨by simp only; omega, ?_⟩
                  unfold find_config
                  simp only
                  rw [Cob.lookup_cons_miss _ _ (Nat.ne_of_lt hlt)]
                  exact hfc
              obtain ⟨j1, j2, j3, j4, j5, j6⟩ := ih
                (Store.mk s.refs ((s.next, config) :: s.blobs) (s.next + 1))
                ((config, s.next) :: seen) h1 hwf1 hcache1
              rw [efst, esnd]
              refine ⟨j1, j2, ?_, ?_, ?_, ?_⟩
              · calc s.next ≤ s.next + 1 := Nat.le_succ _
                  _ ≤ _ := j3
              · intro o ho
                rw [j4 o (by simp only; omega)]
                unfold find_config
                simp only
                rw [Cob.lookup_cons_miss _ _ (Nat.ne_of_lt ho)]
              · refine UpdsFor.trackKeep hfr0 ?_ j5
                rw [j4 s.next (by simp only; omega)]
                unfold find_config
                exact Cob.lookup_cons_hit _ _ _
              · rw [remaining_cons_keep s0 _ rest (by simp [keeps, hfr0])]
                simp [j6]
            · -- blob cache hit: the cached oid is reused
              have e1 : targetFor s seen config = (t, s, seen) := by
                simp [targetFor, hc]
              have efst : (into_updates s seen (Action.track urn peer config :: rest)).1
                  = (into_updates s seen rest).1 := by
                simp only [into_updates, hfr, e1]
              have esnd : (into_updates s seen (Action.track urn peer config :: rest)).2
                  = Update.write (RefName.ofPeer urn peer) t
                    :: (into_updates s seen rest).2 := by
                simp only [into_updates, hfr, e1]
              obtain ⟨j1, j2, j3, j4, j5, j6⟩ := ih s seen h1 h2 h3
              obtain ⟨hlt, hfc⟩ := h3 (config, t) (lookup_mem _ _ _ hc)
              rw [efst, esnd]
              refine ⟨j1, j2, j3, j4, ?_, ?_⟩
              · refine UpdsFor.trackKeep hfr0 ?_ j5
                rw [j4 t hlt]
                exact hfc
              · rw [remaining_cons_keep s0 _ rest (by simp [keeps, hfr0])]
                simp [j6]
          · -- entry exists at batch start: the Track is dropped
            have hfr0 : find_reference s0 (RefName.ofPeer urn peer) = some t0 := by
              rw [← find_reference_congr s s0 h1]
              exact hfr
            have efst : (into_updates s seen (Action.track urn peer config :: rest)).1
                = (into_updates s seen rest).1 := by
              simp only [into_updates, hfr]
            have esnd : (into_updates s seen (Action.track urn peer config :: rest)).2
                = (into_updates s seen rest).2 := by
              simp only [into_updates, hfr]
            obtain ⟨j1, j2, j3, j4, j5, j6⟩ := ih s seen h1 h2 h3
            rw [efst, esnd]
            refine ⟨j1, j2, j3, j4, ?_, ?_⟩
            · exact UpdsFor.trackDrop (by rw [hfr0]; rfl) j5
            · rw [remaining_cons_drop s0 _ rest (by simp [keeps, hfr0])]
              exact j6
      | untrack urn peer =>
          have efst : (into_updates s seen (Action.untrack urn peer :: rest)).1
              = (into_updates s seen rest).1 := by
            simp only [into_updates]
          have esnd : (into_updates s seen (Action.untrack urn peer :: rest)).2
              = Update.delete (RefName.mk urn (Remote.peer peer))
                :: (into_updates s seen rest).2 := by
            simp only [into_updates]
          obtain ⟨j1, j2, j3, j4, j5, j6⟩ := ih s seen h1 h2 h3
          rw [efst, esnd]
          refine ⟨j1, j2, j3, j4, ?_, ?_⟩
          · exact UpdsFor.untrackKeep j5
          · rw [remaining_cons_keep s0 _ rest (by simp [keeps])]
            simp [j6]
      | update urn peer config =>
          rcases hfr : find_reference s (RefName.ofPeer urn peer) with _ | t0
          · -- entry absent at batch start: the Update is dropped
            have hfr0 : find_reference s0 (RefName.ofPeer urn peer) = none := by
              rw [← find_reference_congr s s0 h1]
              exact hfr
            have efst : (into_updates s seen (Action.update urn peer config :: rest)).1
                = (into_updates s seen rest).1 := by
              simp only [into_updates, hfr]
            have esnd : (into_updates s seen (Action.update urn peer config :: rest)).2
                = (into_updates s seen rest).2 := by
              simp only [into_updates, hfr]
            obtain ⟨j1, j2, j3, j4, j5, j6⟩ := ih s seen h1 h2 h3
            rw [efst, esnd]
            refine ⟨j1, j2, j3, j4, ?_, ?_⟩
            · exact UpdsFor.updateDrop hfr0 j5
            · rw [remaining_cons_drop s0 _ rest (by simp [keeps, hfr0])]
              exact j6
          · -- entry exists at batch start: the Update is kept
            have hfr0 : find_reference s0 (RefName.ofPeer urn peer) = some t0 := by
              rw [← find_reference_congr s s0 h1]
              exact hfr
            rcases hc : List.lookup config seen with _ | t
            · have e1 : targetFor s seen config
                  = (s.next, Store.mk s.refs ((s.next, config) :: s.blobs) (s.next + 1),
                     (config, s.next) :: seen) := by
                simp [targetFor, hc, write_config]
              have efst : (into_updates s seen (Action.update urn peer config :: rest)).1
                  = (into_updates (Store.mk s.refs ((s.next, config) :: s.blobs) (s.next + 1))
                      ((config, s.next) :: seen) rest).1 := by
                simp only [into_updates, hfr, e1]
              have esnd : (into_updates s seen (Action.update urn peer config :: rest)).2
                  = Update.write (RefName.ofPeer urn peer) s.next
                    :: (into_updates (Store.mk s.refs ((s.next, config) :: s.blobs)
                        (s.next + 1)) ((config, s.next) :: seen) rest).2 := by
                simp only [into_updates, hfr, e1]
              have hwf1 : WFStore (Store.mk s.refs ((s.next, config) :: s.blobs)
                  (s.next + 1)) := by
                constructor
                · intro p hp
                  have := h2.1 p hp
                  simp only
                  omega
                · intro b hbm
                  rcases List.mem_cons.mp hbm with rfl | hb'
                  · simp
                  · have := h2.2 b hb'
                    simp only
                    omega
              have hcache1 : CacheOK (Store.mk s.refs ((s.next, config) :: s.blobs)
                  (s.next + 1)) ((config, s.next) :: seen) := by
                intro q hq
                rcases List.mem_cons.mp hq with rfl | hq'
                · refine ⟨by simp, ?_⟩
                  unfold find_config
                  exact Cob.lookup_cons_hit _ _ _
                · obtain ⟨hlt, hfc⟩ := h3 q hq'
                  refine ⟨by simp only; omega, ?_⟩
                  unfold find_config
                  simp only
                  rw [Cob.lookup_cons_miss _ _ (Nat.ne_of_lt hlt)]
                  exact hfc
              obtain ⟨j1, j2, j3, j4, j5, j6⟩ := ih
                (Store.mk s.refs ((s.next, config) :: s.blobs) (s.next + 1))
                ((config, s.next) :: seen) h1 hwf1 hcache1
              rw [efst, esnd]
              refine ⟨j1, j2, ?_, ?_, ?_, ?_⟩
              · calc s.next ≤ s.next + 1 := Nat.le_succ _
                  _ ≤ _ := j3
              · intro o ho
                rw [j4 o (by simp only; omega)]
                unfold find_config
                simp only
                rw [Cob.lookup_cons_miss _ _ (Nat.ne_of_lt ho)]
              · refine UpdsFor.updateKeep (by rw [hfr0]; rfl) ?_ j5
                rw [j4 s.next (by simp only; omega)]
                unfold find_config
                exact Cob.lookup_cons_hit _ _ _
              · rw [remaining_cons_keep s0 _ rest (by simp [keeps, hfr0])]
                simp [j6]
            · have e1 : targetFor s seen config = (t, s, seen) := by
                simp [targetFor, hc]
              have efst : (into_updates s seen (Action.update urn peer config :: rest)).1
                  = (into_updates s seen rest).1 := by
                simp only [into_updates, hfr, e1]
              have esnd : (into_updates s seen (Action.update urn peer config :: rest)).2
                  = Update.write (RefName.ofPeer urn peer) t
                    :: (into_updates s seen rest).2 := by
                simp only [into_updates, hfr, e1]
              obtain ⟨j1, j2, j3, j4, j5, j6⟩ := ih s seen h1 h2 h3
              obtain ⟨hlt, hfc⟩ := h3 (config, t) (lookup_mem _ _ _ hc)
              rw [efst, esnd]
              refine ⟨j1, j2, j3, j4, ?_, ?_⟩
              · refine UpdsFor.updateKeep (by rw [hfr0]; rfl) ?_ j5
                rw [j4 t hlt]
                exact hfc
              · rw [remaining_cons_keep s0 _ rest (by simp [keeps, hfr0])]
                simp [j6]

/-- C2 (amended): a `Track` whose entry exists at the start of the
batch and an `Update` whose entry is absent at the start of the batch
are silently omitted — they contribute no reference update (the
transaction applies exactly one update per remaining action, and the
in-memory refdb rejects nothing); and the observable tracking state
after `batch(xs)` equals the state after applying each remaining
action of `xs` sequentially in order *unconditionally* (`Track` and
`Update` write, `Untrack` deletes, no precondition re-check).  This
differs from sequential application through the precondition-checked
single-call operations exactly when an earlier action of the batch
invalidates a later action's precondition (see the counterexample
`[Untrack; Update]`). -/
theorem batch_observable_state (s : Store) (xs : List Action) (hwf : WFStore s) :
    (batch s xs).2.length = (remaining s xs).length ∧
    (∀ n, obs (batch s xs).1 n = obs (seqUncond s (remaining s xs)) n) ∧
    (∀ urn peer, get (batch s xs).1 urn peer
        = get (seqUncond s (remaining s xs)) urn peer) := by
  have hcache : CacheOK s [] := by intro q hq; simp at hq
  obtain ⟨j1, j2, j3, j4, j5, j6⟩ := into_updates_spec s xs s [] rfl hwf hcache
  have hb1 : (batch s xs).1
      = (applyUpdates (into_updates s [] xs).1 (into_updates s [] xs).2).1 := rfl
  have hb2 : (batch s xs).2
      = (applyUpdates (into_updates s [] xs).1 (into_updates s [] xs).2).2 := rfl
  have hobs : ∀ n, obs (into_updates s [] xs).1 n = obs s n := by
    intro n
    unfold obs findRef
    rw [j1]
    rcases h : List.lookup n s.refs with _ | t
    · simp [h]
    · have ht : t < s.next := hwf.1 (n, t) (lookup_mem _ _ _ h)
      simp only [h, Option.some_bind]
      exact j4 t ht
  have hmain : ∀ n, obs (batch s xs).1 n = obs (seqUncond s (remaining s xs)) n := by
    intro n
    rw [hb1, applyUpdates_obs s xs (into_updates s [] xs).2 (into_updates s [] xs).1 j5 n]
    rw [obs_seqUncond (remaining s xs) s hwf n]
    exact obsFold_congr _ _ _ hobs n
  refine ⟨?_, hmain, ?_⟩
  · rw [hb2, applyUpdates_len, j6]
  · intro urn peer
    rw [get_eq_obs, get_eq_obs, hmain]

/-- C2 witness: the amended theorem at the counterexample's store and
batch. -/
theorem batch_observable_state_witness :
    WFStore (Store.mk [("refs/rad/remotes/u/p", 0)]
      [(0, Config.mk true Cobs.wildcard)] 1) ∧
    (batch (Store.mk [("refs/rad/remotes/u/p", 0)] [(0, Config.mk true Cobs.wildcard)] 1)
        [Action.untrack "u" "p",
         Action.update "u" (some "p") (Config.mk false Cobs.wildcard)]).2.length
      = (remaining (Store.mk [("refs/rad/remotes/u/p", 0)]
          [(0, Config.mk true Cobs.wildcard)] 1)
          [Action.untrack "u" "p",
           Action.update "u" (some "p") (Config.mk false Cobs.wildcard)]).length ∧
    get (batch (Store.mk [("refs/rad/remotes/u/p", 0)] [(0, Config.mk true Cobs.wildcard)] 1)
        [Action.untrack "u" "p",
         Action.update "u" (some "p") (Config.mk false Cobs.wildcard)]).1 "u" (some "p")
      = get (seqUncond (Store.mk [("refs/rad/remotes/u/p", 0)]
          [(0, Config.mk true Cobs.wildcard)] 1)
          (remaining (Store.mk [("refs/rad/remotes/u/p", 0)]
            [(0, Config.mk true Cobs.wildcard)] 1)
            [Action.untrack "u" "p",
             Action.update "u" (some "p") (Config.mk false Cobs.wildcard)]))
          "u" (some "p") :=
  ⟨by decide,
   (batch_observable_state (Store.mk [("refs/rad/remotes/u/p", 0)]
      [(0, Config.mk true Cobs.wildcard)] 1)
      [Action.untrack "u" "p",
       Action.update "u" (some "p") (Config.mk false Cobs.wildcard)] (by decide)).1,
   (batch_observable_state (Store.mk [("refs/rad/remotes/u/p", 0)]
      [(0, Config.mk true Cobs.wildcard)] 1)
      [Action.untrack "u" "p",
       Action.update "u" (some "p") (Config.mk false Cobs.wildcard)] (by decide)).2.2
     "u" (some "p")⟩

end Tracking